import Mathlib

/-!
# Verification of the `final-state-rs` entropy-coding core

Shallow embedding of the rANS / tANS codec pipeline of the repository
(`src/count.rs`, `src/normalization.rs`, `src/spreads.rs`, `src/r_ans.rs`,
`src/t_ans.rs`) and proofs of the specification claims about it.

Modelling conventions:
* Rust `usize` values are modelled as `Nat`.  The repository targets a
  64-bit machine (`usize::BITS = 64`), so `usize::BITS - 2` is the constant
  `62`.  Machine-word overflow is impossible in every regime reached by the
  theorems below (all quantities stay far below `2 ^ 64`); where the source
  can overflow or underflow on other inputs this is noted next to the
  definition.
* Rust `i32` values that can genuinely be negative (the `starts` table of
  tANS) are modelled as `Int`.
* Slices and `Vec`s are modelled as `List Nat`; indexing `v[i]` becomes
  `l.getD i 0` (all proved regimes are in bounds).
* Fallible code (panics: division by zero, failed `assert!`, `unwrap` of a
  missing value, out-of-fuel divergent loops) returns `Option`.
* The bitstream collaborator (`tiny_bitstream`) is external to the
  repository; it is modelled from the spec contract (§6) as a LIFO stack of
  bits, see `pushBits` / `readBits` below.
-/

namespace FinalState

/-! ## Bitstream model

Modelled from the spec: the external `tiny_bitstream` collaborator
(`BitEstream::unchecked_write`, `BitDstream::read`, the finalize mark).
Spec §6: `write(value, n)` appends the low `n` bits of `value`;
`read(n)` pops the most recently written `n` bits not yet read, returning
them right-aligned; finalize appends a single `1` marker bit (byte padding
is internal to the collaborator and invisible at this level); on decode
open the marker bit is read and discarded first.

The stream is a stack of bits; the exact bit order inside one write is
internal to the collaborator, the contract only promises that `read n`
returns exactly the value whose low `n` bits were most recently written. -/

/-- Modelled from the spec: `write(value, n)` pushes the low `n` bits of
`value` onto the stack (low bit at the head). -/
def pushBits (value n : Nat) (st : List Bool) : List Bool :=
  match n with
  | 0 => st
  | n + 1 => (value % 2 == 1) :: pushBits (value / 2) n st

/-- Modelled from the spec: `read(n)` pops `n` bits and reassembles the
value (head of the stack = low bit).  Returns `none` when the stream is
exhausted (the Rust side panics there). -/
def readBits (n : Nat) (st : List Bool) : Option (Nat × List Bool) :=
  match n, st with
  | 0, st => some (0, st)
  | _ + 1, [] => none
  | n + 1, b :: st =>
    match readBits n st with
    | some (v, st') => some ((if b then 1 else 0) + 2 * v, st')
    | none => none

/-- Modelled from the spec: finalizing an encode stream appends the `1`
marker bit. -/
def finalizeStream (st : List Bool) : List Bool := true :: st

theorem two_mul_mod_pow_succ (v n : Nat) :
    v % 2 ^ (n + 1) = v % 2 + 2 * (v / 2 % 2 ^ n) := by
  have hP : 0 < 2 ^ n := Nat.pos_pow_of_pos _ (by norm_num)
  have h2 : v / 2 % 2 ^ n < 2 ^ n := Nat.mod_lt _ hP
  have hpow : (2:Nat) ^ (n + 1) = 2 ^ n * 2 := by rw [pow_succ]
  have hv : v = (v % 2 + 2 * (v / 2 % 2 ^ n)) + 2 ^ n * 2 * (v / 2 / 2 ^ n) := by
    have d1 := Nat.div_add_mod v 2
    have d2 := Nat.div_add_mod (v / 2) (2 ^ n)
    have hexp : 2 ^ n * 2 * (v / 2 / 2 ^ n) = 2 * (2 ^ n * (v / 2 / 2 ^ n)) := by
      ring
    rw [hexp]
    omega
  conv_lhs => rw [hv, hpow]
  rw [Nat.add_mul_mod_self_left]
  exact Nat.mod_eq_of_lt (by omega)

/-- Reading back a just-written value returns it (mod `2 ^ n`) and restores
the stack: the LIFO contract of §6. -/
theorem readBits_pushBits (n : Nat) : ∀ (value : Nat) (st : List Bool),
    readBits n (pushBits value n st) = some (value % 2 ^ n, st) := by
  induction n with
  | zero => intro value st; simp [pushBits, readBits, Nat.mod_one]
  | succ n ih =>
    intro value st
    rw [pushBits]
    have hstep : readBits (n + 1) ((value % 2 == 1) :: pushBits (value / 2) n st)
        = some ((if (value % 2 == 1) then 1 else 0) + 2 * (value / 2 % 2 ^ n), st) := by
      simp [readBits, ih (value / 2) st]
    rw [hstep]
    congr 1
    rw [Prod.mk.injEq]
    refine ⟨?_, rfl⟩
    rw [two_mul_mod_pow_succ]
    rcases Nat.mod_two_eq_zero_or_one value with h | h <;> simp [h]

theorem pushBits_length (n : Nat) : ∀ (value : Nat) (st : List Bool),
    (pushBits value n st).length = n + st.length := by
  induction n with
  | zero => intro value st; simp [pushBits]
  | succ n ih => intro value st; rw [pushBits]; simp [ih]; omega

/-! ## rANS arithmetic (`src/r_ans.rs`) -/

/-- `compress_state` (r_ans.rs:9).  One rANS encode step:
`((state / frequency) << table_log) + (state % frequency) + cumul`.
The Rust division panics for `frequency = 0`; every theorem below assumes
`1 ≤ frequency` (Lean's `Nat` division would return 0 there instead). -/
def compress_state (state table_log frequency cumul : Nat) : Nat :=
  ((state / frequency) <<< table_log) + (state % frequency) + cumul

/-- `decompress_state` (r_ans.rs:196).  One rANS decode step:
`(frequency * (state >> table_log)) + (state & mask) - cumul` with
`mask = 2 ^ table_log - 1`.  The `usize` subtraction is modelled by
truncated `Nat` subtraction; in every proved regime `cumul` never exceeds
the minuend. -/
def decompress_state (state frequency table_log cumul : Nat) : Nat :=
  (frequency * (state >>> table_log)) + (state % 2 ^ table_log) - cumul

/-- C10: one compress step followed by one decompress step with the same
`(frequency, table_log, cumul)` is the identity, provided the low part
`(state % frequency) + cumul` fits under `2 ^ table_log`. -/
theorem decompress_compress (state table_log frequency cumul : Nat)
    (_hf : 1 ≤ frequency)
    (hlow : state % frequency + cumul < 2 ^ table_log) :
    decompress_state (compress_state state table_log frequency cumul)
      frequency table_log cumul = state := by
  unfold compress_state decompress_state
  rw [Nat.shiftLeft_eq, Nat.shiftRight_eq_div_pow]
  have hpos : 0 < 2 ^ table_log := Nat.pos_pow_of_pos _ (by norm_num)
  have hdm := Nat.div_add_mod state frequency
  set q := state / frequency with hq
  set r := state % frequency with hr
  have h1 : q * 2 ^ table_log + r + cumul = r + cumul + 2 ^ table_log * q := by
    ring
  rw [h1, Nat.add_mul_div_left _ _ hpos, Nat.div_eq_of_lt hlow, Nat.zero_add,
    Nat.add_mul_mod_self_left, Nat.mod_eq_of_lt hlow]
  omega

/-- Witness for C10 at `state = 1000`, `table_log = 8`, `frequency = 3`,
`cumul = 5`. -/
theorem decompress_compress_witness :
    1 ≤ 3 ∧ 1000 % 3 + 5 < 2 ^ 8 ∧
      decompress_state (compress_state 1000 8 3 5) 3 8 5 = 1000 :=
  ⟨by decide, by decide, decompress_compress 1000 8 3 5 (by decide) (by decide)⟩

/-! ## Cumulative function (`src/normalization.rs:333`) -/

/-- Tail of `build_cumulative_function`: the fold pushes the running sum
before adding each frequency, and pushes the total at the end. -/
def cumulFrom (acc : Nat) : List Nat → List Nat
  | [] => [acc]
  | f :: t => acc :: cumulFrom (acc + f) t

/-- `build_cumulative_function` (normalization.rs:333):
`cs[s] = f0 + f1 + ... + f(s-1)`, with the grand total as last entry. -/
def build_cumulative_function (hist : List Nat) : List Nat :=
  cumulFrom 0 hist

theorem cumulFrom_length (F : List Nat) : ∀ acc : Nat,
    (cumulFrom acc F).length = F.length + 1 := by
  induction F with
  | nil => intro acc; simp [cumulFrom]
  | cons f t ih => intro acc; simp [cumulFrom, ih]

theorem cumulFrom_getD (F : List Nat) : ∀ (acc i : Nat), i ≤ F.length →
    (cumulFrom acc F).getD i 0 = acc + (F.take i).sum := by
  induction F with
  | nil =>
    intro acc i hi
    simp only [List.length_nil, Nat.le_zero] at hi
    subst hi
    simp [cumulFrom]
  | cons f t ih =>
    intro acc i hi
    cases i with
    | zero => simp [cumulFrom]
    | succ j =>
      simp only [cumulFrom, List.getD_cons_succ, List.take_succ_cons,
        List.sum_cons]
      rw [ih (acc + f) j (by simpa using hi)]
      omega

theorem take_sum_le (F : List Nat) (i : Nat) : (F.take i).sum ≤ F.sum := by
  conv_rhs => rw [← List.take_append_drop i F]
  rw [List.sum_append]
  omega

theorem take_succ_sum (F : List Nat) (i : Nat) (h : i < F.length) :
    (F.take (i + 1)).sum = (F.take i).sum + F.getD i 0 := by
  rw [List.sum_take_succ F i h, List.getD_eq_getElem F 0 h]

/-! ## `find_s` (`src/r_ans.rs:186`) -/

/-- Loop of `find_s`: scan `cs`, return `i - 1` at the first entry
exceeding `state`, else `0` (the `i - 1` is `usize` arithmetic; the source
can only reach it with `i ≥ 1` because `cs[0] = 0`). -/
def find_s_aux (state : Nat) (i : Nat) : List Nat → Nat
  | [] => 0
  | c :: t => if c > state then i - 1 else find_s_aux state (i + 1) t

/-- `find_s` (r_ans.rs:186): locate the symbol whose cumulative slot
contains `state`. -/
def find_s (state : Nat) (cs : List Nat) : Nat :=
  find_s_aux state 0 cs

/-- `find_s` over a cumulative list recovers the symbol owning the slot:
if `acc + sum F[0..s] ≤ r < acc + sum F[0..s+1]` then the scan starting at
index `i` answers `i + s`. -/
theorem find_s_aux_cumul (F : List Nat) : ∀ (acc i r s : Nat),
    s < F.length →
    acc + (F.take s).sum ≤ r →
    r < acc + (F.take (s + 1)).sum →
    find_s_aux r i (cumulFrom acc F) = i + s := by
  induction F with
  | nil => intro acc i r s hs; simp at hs
  | cons f t ih =>
    intro acc i r s hs hlo hhi
    have hacc : ¬ acc > r := by
      have : (List.take s (f :: t)).sum ≥ 0 := Nat.zero_le _
      omega
    cases s with
    | zero =>
      simp only [List.take_succ_cons, List.take_zero, List.sum_cons,
        List.sum_nil] at hhi
      rw [cumulFrom, find_s_aux, if_neg hacc]
      cases t with
      | nil =>
        rw [cumulFrom, find_s_aux, if_pos (by omega)]
        omega
      | cons g u =>
        rw [cumulFrom, find_s_aux, if_pos (by omega)]
        omega
    | succ s' =>
      simp only [List.take_succ_cons, List.sum_cons] at hlo hhi
      rw [cumulFrom, find_s_aux, if_neg hacc]
      rw [ih (acc + f) (i + 1) r s' (by simpa using hs) (by omega) (by omega)]
      omega

theorem find_s_cumul (F : List Nat) (r s : Nat)
    (hs : s < F.length)
    (hlo : (F.take s).sum ≤ r)
    (hhi : r < (F.take (s + 1)).sum) :
    find_s r (build_cumulative_function F) = s := by
  unfold find_s build_cumulative_function
  rw [find_s_aux_cumul F 0 0 r s hs (by omega) (by omega)]
  omega

/-! ## rANS encoder / decoder (`src/r_ans.rs`) -/

/-- The mutable state of an rANS encode or decode invocation: the state
register, the bit-count trail (most recent entry first, i.e. the reverse of
the Rust `Vec` that is pushed at the back), and the bitstream stack. -/
structure RansState where
  state : Nat
  trail : List Nat
  stream : List Bool
  deriving Repr, DecidableEq

/-- One iteration of the encode loop of `encode_rans` (r_ans.rs:148-179):
renormalize by shedding the low 16 bits when `state ≥ fs << (32 - R)`
(recording the shed bit-width `u64::BITS - bits.leading_zeros()`, i.e.
`Nat.size bits`), then `compress_state`. -/
def encodeStepRans (F cs : List Nat) (table_log : Nat) :
    RansState → Nat → RansState
  | ⟨state, trail, stream⟩, symbol =>
    let fs := F.getD symbol 0
    let d := 32 - table_log
    if fs <<< d ≤ state then
      { state := compress_state (state >>> 16) table_log fs
          (cs.getD symbol 0),
        trail := Nat.size (state % 2 ^ 16) :: trail,
        stream := pushBits (state % 2 ^ 16) (Nat.size (state % 2 ^ 16))
          stream }
    else
      { state := compress_state state table_log fs (cs.getD symbol 0),
        trail := trail,
        stream := stream }

/-- `encode_rans` (r_ans.rs:128): fold the step over the source
left-to-right starting from state 0; fail if the histogram is not
normalized (the `assert_eq!` at r_ans.rs:135); finalize the stream and
return the trail in `Vec` (chronological) order. -/
def encode_rans (normalized_histogram : List Nat) (table_log : Nat)
    (src : List Nat) : Option (Nat × List Nat × List Bool) :=
  if normalized_histogram.sum = 1 <<< table_log then
    let cs := build_cumulative_function normalized_histogram
    let fin := src.foldl (encodeStepRans normalized_histogram cs table_log)
      ⟨0, [], []⟩
    some (fin.state, fin.trail.reverse, finalizeStream fin.stream)
  else none

/-- One iteration of the decode loop of `decode_rans` (r_ans.rs:256-278):
find the symbol from the low `table_log` bits, `decompress_state`, and if
the state fell under `2^16` pop the trail and reload 16 bits worth of
stream (when the trail is already empty the state is left alone). -/
def decodeStepRans (F cs : List Nat) (table_log : Nat) :
    RansState → Option (Nat × RansState)
  | ⟨state, trail, stream⟩ =>
    let symbol := find_s (state % 2 ^ table_log) cs
    let s1 := decompress_state state (F.getD symbol 0) table_log
      (cs.getD symbol 0)
    if s1 < 2 ^ 16 then
      match trail with
      | [] => some (symbol, { state := s1, trail := [], stream := stream })
      | nb :: rest =>
        match readBits nb stream with
        | some (v, stream') =>
          some (symbol,
            { state := (s1 <<< 16) + v, trail := rest, stream := stream' })
        | none => none
    else
      some (symbol, { state := s1, trail := trail, stream := stream })

/-- The `for _ in 0..len` decode loop, returning the symbols in production
order (last encoded first) together with the final state. -/
def decodeLoopRans (F cs : List Nat) (table_log : Nat) :
    Nat → RansState → Option (List Nat × RansState)
  | 0, st => some ([], st)
  | n + 1, st =>
    match decodeStepRans F cs table_log st with
    | some (sym, st') =>
      match decodeLoopRans F cs table_log n st' with
      | some (syms, stf) => some (sym :: syms, stf)
      | none => none
    | none => none

/-- `decode_rans` (r_ans.rs:241): read the mark bit, run the loop `len`
times (popping the trail `Vec` from the back, hence the `reverse`), and
reverse the produced symbols. -/
def decode_rans (state : Nat) (bits : List Nat) (stream : List Bool)
    (normalized_counter : List Nat) (table_log len : Nat) :
    Option (List Nat) :=
  let cs := build_cumulative_function normalized_counter
  match readBits 1 stream with
  | none => none
  | some (_, stream') =>
    match decodeLoopRans normalized_counter cs table_log len
        ⟨state, bits.reverse, stream'⟩ with
    | some (syms, _) => some syms.reverse
    | none => none

/-! ## rANS invariants and round trip -/

/-- Well-formedness of the rANS state along the encode loop: the register
stays under `2^32`, and a register under `2^16` can only occur before the
first renormalization, i.e. with an empty trail. -/
def RansInv (st : RansState) : Prop :=
  st.state < 2 ^ 32 ∧ (st.state < 2 ^ 16 → st.trail = [])

/-- A compress step never decreases the register (`fs ≤ 2^R`). -/
theorem compress_ge (state R fs c : Nat) (hle : fs ≤ 2 ^ R) :
    state ≤ compress_state state R fs c := by
  unfold compress_state
  rw [Nat.shiftLeft_eq]
  have h := Nat.div_add_mod state fs
  have h2 : fs * (state / fs) ≤ state / fs * 2 ^ R := by
    rw [Nat.mul_comm]
    exact Nat.mul_le_mul_left _ hle
  omega

/-- A compress step from a renormalized register stays under `2^(d+R)`. -/
theorem compress_lt (state R d fs c : Nat) (hfs : 1 ≤ fs)
    (hstate : state < fs <<< d) (hc : c + fs ≤ 2 ^ R) :
    compress_state state R fs c < 2 ^ (d + R) := by
  unfold compress_state
  rw [Nat.shiftLeft_eq] at hstate ⊢
  have hq : state / fs < 2 ^ d := by
    rw [Nat.div_lt_iff_lt_mul hfs]
    calc state < fs * 2 ^ d := hstate
    _ = 2 ^ d * fs := Nat.mul_comm _ _
  have hmod : state % fs < fs := Nat.mod_lt _ hfs
  have h1 : state / fs * 2 ^ R ≤ (2 ^ d - 1) * 2 ^ R :=
    Nat.mul_le_mul_right _ (by omega)
  have h2 : (2 ^ d - 1) * 2 ^ R = 2 ^ d * 2 ^ R - 2 ^ R := by
    rw [Nat.sub_mul, Nat.one_mul]
  have h3 : 2 ^ R ≤ 2 ^ d * 2 ^ R :=
    Nat.le_mul_of_pos_left _ (Nat.pos_pow_of_pos _ (by norm_num))
  have hdr : (2:Nat) ^ (d + R) = 2 ^ d * 2 ^ R := pow_add 2 d R
  omega

/-- A compress step from a register that just shed 16 bits lands at or
above `2^(d-16+R)`. -/
theorem compress_ge_of_shed (state R d fs c : Nat) (hfs : 1 ≤ fs)
    (_hd : 16 ≤ d) (hstate : fs <<< (d - 16) ≤ state) :
    2 ^ (d - 16 + R) ≤ compress_state state R fs c := by
  unfold compress_state
  rw [Nat.shiftLeft_eq] at hstate ⊢
  have hq : 2 ^ (d - 16) ≤ state / fs := by
    rw [Nat.le_div_iff_mul_le hfs, Nat.mul_comm]
    exact hstate
  have h1 : 2 ^ (d - 16) * 2 ^ R ≤ state / fs * 2 ^ R :=
    Nat.mul_le_mul_right _ hq
  have hdr : (2:Nat) ^ (d - 16 + R) = 2 ^ (d - 16) * 2 ^ R := pow_add 2 _ R
  omega

/-- The low `2^R` window of a compress result is `(state % fs) + cumul`. -/
theorem compress_mod (state R fs c : Nat) (hlow : state % fs + c < 2 ^ R) :
    compress_state state R fs c % 2 ^ R = state % fs + c := by
  unfold compress_state
  rw [Nat.shiftLeft_eq, Nat.add_assoc, Nat.mul_comm (state / fs) (2 ^ R),
    Nat.mul_add_mod, Nat.mod_eq_of_lt hlow]

/-- One decode step exactly inverts one encode step, and the encode-loop
invariant is preserved.  This is the heart of the rANS round trip: the
decoder pops the trail exactly when the encoder shed bits, because a
register under `2^16` at a non-shedding step can only occur while the
trail is still empty. -/
theorem rans_step_inversion (F : List Nat) (R : Nat) (st : RansState)
    (sym : Nat) (hR : R ≤ 16) (hsum : F.sum = 2 ^ R)
    (hsym : sym < F.length) (hfs : 1 ≤ F.getD sym 0)
    (hinv : RansInv st) :
    decodeStepRans F (build_cumulative_function F) R
        (encodeStepRans F (build_cumulative_function F) R st sym)
      = some (sym, st)
    ∧ RansInv (encodeStepRans F (build_cumulative_function F) R st sym) := by
  obtain ⟨x, trail, stream⟩ := st
  obtain ⟨hx32, hx16⟩ := hinv
  have hx32' : x < 2 ^ 32 := hx32
  have hx16' : x < 2 ^ 16 → trail = [] := hx16
  have hcval : (build_cumulative_function F).getD sym 0
      = (F.take sym).sum := by
    unfold build_cumulative_function
    rw [cumulFrom_getD F 0 sym (Nat.le_of_lt hsym), Nat.zero_add]
  have hsucc : (F.take (sym + 1)).sum = (F.take sym).sum + F.getD sym 0 :=
    take_succ_sum F sym hsym
  have hcfs : (build_cumulative_function F).getD sym 0 + F.getD sym 0
      ≤ 2 ^ R := by
    have h1 := take_sum_le F (sym + 1)
    rw [hsum] at h1
    omega
  have hfs2R : F.getD sym 0 ≤ 2 ^ R := by omega
  have hRd : 32 - R + R = 32 := by omega
  have hd16 : 16 ≤ 32 - R := by omega
  by_cases hshed : F.getD sym 0 <<< (32 - R) ≤ x
  case pos =>
    have henc : encodeStepRans F (build_cumulative_function F) R
        ⟨x, trail, stream⟩ sym =
        ⟨compress_state (x >>> 16) R (F.getD sym 0)
            ((build_cumulative_function F).getD sym 0),
          Nat.size (x % 2 ^ 16) :: trail,
          pushBits (x % 2 ^ 16) (Nat.size (x % 2 ^ 16)) stream⟩ := by
      simp only [encodeStepRans]
      rw [if_pos hshed]
    have hx0 : x >>> 16 = x / 2 ^ 16 := Nat.shiftRight_eq_div_pow x 16
    have hx0lt : x >>> 16 < 2 ^ 16 := by
      rw [hx0, Nat.div_lt_iff_lt_mul (Nat.pos_pow_of_pos 16 (by norm_num))]
      calc x < 2 ^ 32 := hx32'
      _ = 2 ^ 16 * 2 ^ 16 := by norm_num
    have hx0shed : F.getD sym 0 <<< (32 - R - 16) ≤ x >>> 16 := by
      rw [hx0, Nat.shiftLeft_eq,
        Nat.le_div_iff_mul_le (Nat.pos_pow_of_pos 16 (by norm_num))]
      have hexp : F.getD sym 0 * 2 ^ (32 - R - 16) * 2 ^ 16
          = F.getD sym 0 * 2 ^ (32 - R) := by
        rw [Nat.mul_assoc, ← pow_add]
        congr 2
        omega
      rw [hexp, ← Nat.shiftLeft_eq]
      exact hshed
    have hx0small : x >>> 16 < F.getD sym 0 <<< (32 - R) := by
      calc x >>> 16 < 2 ^ 16 := hx0lt
      _ ≤ F.getD sym 0 <<< (32 - R) := by
          rw [Nat.shiftLeft_eq]
          calc (2:Nat) ^ 16 ≤ 2 ^ (32 - R) :=
            Nat.pow_le_pow_right (by norm_num) hd16
          _ ≤ F.getD sym 0 * 2 ^ (32 - R) := Nat.le_mul_of_pos_left _ hfs
    have hy32 : compress_state (x >>> 16) R (F.getD sym 0)
        ((build_cumulative_function F).getD sym 0) < 2 ^ 32 := by
      have h := compress_lt (x >>> 16) R (32 - R) (F.getD sym 0)
        ((build_cumulative_function F).getD sym 0) hfs hx0small hcfs
      rwa [hRd] at h
    have hy16 : 2 ^ 16 ≤ compress_state (x >>> 16) R (F.getD sym 0)
        ((build_cumulative_function F).getD sym 0) := by
      have h := compress_ge_of_shed (x >>> 16) R (32 - R) (F.getD sym 0)
        ((build_cumulative_function F).getD sym 0) hfs hd16 hx0shed
      have he : 32 - R - 16 + R = 16 := by omega
      rwa [he] at h
    have hmlt : x >>> 16 % F.getD sym 0 < F.getD sym 0 :=
      Nat.mod_lt _ hfs
    have hmodfs : x >>> 16 % F.getD sym 0
        + (build_cumulative_function F).getD sym 0 < 2 ^ R := by omega
    have hylow : compress_state (x >>> 16) R (F.getD sym 0)
          ((build_cumulative_function F).getD sym 0) % 2 ^ R
        = x >>> 16 % F.getD sym 0
          + (build_cumulative_function F).getD sym 0 :=
      compress_mod _ _ _ _ hmodfs
    have hfind : find_s (compress_state (x >>> 16) R (F.getD sym 0)
          ((build_cumulative_function F).getD sym 0) % 2 ^ R)
        (build_cumulative_function F) = sym := by
      rw [hylow]
      apply find_s_cumul F _ sym hsym
      · omega
      · rw [hsucc]
        omega
    have hdec : decompress_state (compress_state (x >>> 16) R
          (F.getD sym 0) ((build_cumulative_function F).getD sym 0))
        (F.getD sym 0) R ((build_cumulative_function F).getD sym 0)
        = x >>> 16 := decompress_compress _ _ _ _ hfs hmodfs
    have hrecomb : (x >>> 16) <<< 16 + x % 2 ^ 16 = x := by
      rw [hx0, Nat.shiftLeft_eq]
      have := Nat.div_add_mod x (2 ^ 16)
      omega
    rw [henc]
    constructor
    · simp only [decodeStepRans, hfind, hdec]
      rw [if_pos hx0lt]
      rw [readBits_pushBits, Nat.mod_eq_of_lt (Nat.lt_size_self _)]
      show some (sym, RansState.mk (x >>> 16 <<< 16 + x % 2 ^ 16) trail stream)
          = some (sym, RansState.mk x trail stream)
      rw [hrecomb]
    · exact ⟨hy32, fun h => absurd h (Nat.not_lt.mpr hy16)⟩
  case neg =>
    have hshed' : x < F.getD sym 0 <<< (32 - R) := Nat.lt_of_not_le hshed
    have henc : encodeStepRans F (build_cumulative_function F) R
        ⟨x, trail, stream⟩ sym =
        ⟨compress_state x R (F.getD sym 0)
            ((build_cumulative_function F).getD sym 0),
          trail, stream⟩ := by
      simp only [encodeStepRans]
      rw [if_neg hshed]
    have hy32 : compress_state x R (F.getD sym 0)
        ((build_cumulative_function F).getD sym 0) < 2 ^ 32 := by
      have h := compress_lt x R (32 - R) (F.getD sym 0)
        ((build_cumulative_function F).getD sym 0) hfs hshed' hcfs
      rwa [hRd] at h
    have hyx : x ≤ compress_state x R (F.getD sym 0)
        ((build_cumulative_function F).getD sym 0) :=
      compress_ge x R _ _ hfs2R
    have hmlt : x % F.getD sym 0 < F.getD sym 0 := Nat.mod_lt _ hfs
    have hmodfs : x % F.getD sym 0
        + (build_cumulative_function F).getD sym 0 < 2 ^ R := by omega
    have hylow : compress_state x R (F.getD sym 0)
          ((build_cumulative_function F).getD sym 0) % 2 ^ R
        = x % F.getD sym 0 + (build_cumulative_function F).getD sym 0 :=
      compress_mod _ _ _ _ hmodfs
    have hfind : find_s (compress_state x R (F.getD sym 0)
          ((build_cumulative_function F).getD sym 0) % 2 ^ R)
        (build_cumulative_function F) = sym := by
      rw [hylow]
      apply find_s_cumul F _ sym hsym
      · omega
      · rw [hsucc]
        omega
    have hdec : decompress_state (compress_state x R (F.getD sym 0)
          ((build_cumulative_function F).getD sym 0))
        (F.getD sym 0) R ((build_cumulative_function F).getD sym 0) = x :=
      decompress_compress _ _ _ _ hfs hmodfs
    rw [henc]
    constructor
    · by_cases hxlow : x < 2 ^ 16
      case pos =>
        have htr : trail = [] := hx16' hxlow
        subst htr
        simp only [decodeStepRans, hfind, hdec]
        rw [if_pos hxlow]
      case neg =>
        simp only [decodeStepRans, hfind, hdec]
        rw [if_neg hxlow]
    · exact ⟨hy32, fun h => hx16' (lt_of_le_of_lt hyx h)⟩

/-- The encode-loop invariant holds along the whole encode fold. -/
theorem rans_encode_inv (F : List Nat) (R : Nat) (hR : R ≤ 16)
    (hsum : F.sum = 2 ^ R) :
    ∀ (src : List Nat) (st : RansState),
      (∀ s ∈ src, s < F.length ∧ 1 ≤ F.getD s 0) → RansInv st →
      RansInv (src.foldl
        (encodeStepRans F (build_cumulative_function F) R) st) := by
  intro src
  induction src with
  | nil => intro st _ hinv; exact hinv
  | cons a t ih =>
    intro st hsrc hinv
    rw [List.foldl_cons]
    exact ih _ (fun s hs => hsrc s (List.mem_cons_of_mem a hs))
      (rans_step_inversion F R st a hR hsum
        (hsrc a (List.mem_cons_self a t)).1
        (hsrc a (List.mem_cons_self a t)).2 hinv).2

/-- Decoding `src.length` symbols from the encode-fold result recovers the
source in production order (reversed) and restores the pre-encode state. -/
theorem rans_decode_loop_inverts (F : List Nat) (R : Nat) (hR : R ≤ 16)
    (hsum : F.sum = 2 ^ R) :
    ∀ (src : List Nat) (st : RansState),
      (∀ s ∈ src, s < F.length ∧ 1 ≤ F.getD s 0) → RansInv st →
      decodeLoopRans F (build_cumulative_function F) R src.length
          (src.foldl (encodeStepRans F (build_cumulative_function F) R) st)
        = some (src.reverse, st) := by
  intro src
  induction src using List.reverseRecOn with
  | nil => intro st _ _; simp [decodeLoopRans]
  | append_singleton t a ih =>
    intro st hsrc hinv
    rw [List.foldl_append]
    have hlen : (t ++ [a]).length = t.length + 1 := by simp
    rw [hlen]
    have hmem : ∀ s ∈ t, s < F.length ∧ 1 ≤ F.getD s 0 :=
      fun s hs => hsrc s (by simp [hs])
    have hma : a < F.length ∧ 1 ≤ F.getD a 0 := hsrc a (by simp)
    have hX : RansInv (t.foldl
        (encodeStepRans F (build_cumulative_function F) R) st) :=
      rans_encode_inv F R hR hsum t st hmem hinv
    have hstep := rans_step_inversion F R _ a hR hsum hma.1 hma.2 hX
    simp only [List.foldl_cons, List.foldl_nil]
    simp only [decodeLoopRans, hstep.1, ih st hmem hinv,
      List.reverse_append, List.reverse_cons, List.reverse_nil,
      List.nil_append, List.singleton_append]

/-- C1: rANS round trip.  For every normalized histogram `F` of the source
(`sum F = 2^R`, every byte of `src` has a positive frequency), every
`table_log` in `[5, 13]`, and every source of length at least 1, decoding
the triple `(final_state, bit-count trail, bitstream)` produced by
`encode_rans` with the same `F`, `table_log` and `src.length` returns
exactly `src`. -/
theorem rans_round_trip (F : List Nat) (table_log : Nat) (src : List Nat)
    (hR5 : 5 ≤ table_log) (hR13 : table_log ≤ 13)
    (_hlen : 1 ≤ src.length)
    (hsum : F.sum = 2 ^ table_log)
    (hsym : ∀ s ∈ src, s < F.length ∧ 1 ≤ F.getD s 0) :
    ∃ e : Nat × List Nat × List Bool,
      encode_rans F table_log src = some e ∧
      decode_rans e.1 e.2.1 e.2.2 F table_log src.length = some src := by
  have hR16 : table_log ≤ 16 := by omega
  have hcond : F.sum = 1 <<< table_log := by
    rw [Nat.shiftLeft_eq, Nat.one_mul]
    exact hsum
  have hinv0 : RansInv ⟨0, [], []⟩ := ⟨by norm_num, fun _ => rfl⟩
  refine ⟨((src.foldl (encodeStepRans F (build_cumulative_function F)
        table_log) ⟨0, [], []⟩).state,
      (src.foldl (encodeStepRans F (build_cumulative_function F)
        table_log) ⟨0, [], []⟩).trail.reverse,
      finalizeStream (src.foldl (encodeStepRans F
        (build_cumulative_function F) table_log) ⟨0, [], []⟩).stream),
    ?_, ?_⟩
  · unfold encode_rans
    rw [if_pos hcond]
  · have hmark : readBits 1 (finalizeStream (src.foldl (encodeStepRans F
        (build_cumulative_function F) table_log) ⟨0, [], []⟩).stream)
        = some (1, (src.foldl (encodeStepRans F
          (build_cumulative_function F) table_log) ⟨0, [], []⟩).stream) := by
      simp [finalizeStream, readBits]
    have hloop := rans_decode_loop_inverts F table_log hR16 hsum src
      ⟨0, [], []⟩ hsym hinv0
    simp only [decode_rans, hmark, List.reverse_reverse, hloop]

/-- Witness for C1 at `F = [16, 16]`, `table_log = 5`, `src = [0, 1, 0]`. -/
theorem rans_round_trip_witness :
    ((5:Nat) ≤ 5 ∧ (5:Nat) ≤ 13 ∧ 1 ≤ ([0, 1, 0]:List Nat).length ∧
      ([16, 16]:List Nat).sum = 2 ^ 5 ∧
      (∀ s ∈ ([0, 1, 0]:List Nat), s < ([16, 16]:List Nat).length ∧
        1 ≤ ([16, 16]:List Nat).getD s 0)) ∧
    ∃ e : Nat × List Nat × List Bool,
      encode_rans [16, 16] 5 [0, 1, 0] = some e ∧
      decode_rans e.1 e.2.1 e.2.2 [16, 16] 5 ([0, 1, 0]:List Nat).length
        = some [0, 1, 0] :=
  ⟨⟨by decide, by decide, by decide, by decide, by decide⟩,
    rans_round_trip [16, 16] 5 [0, 1, 0] (by decide) (by decide)
      (by decide) (by decide) (by decide)⟩

/-- C8: during `encode_rans` with a normalized histogram (`sum F = 2^R`,
`R ≤ 15`, all encoded symbols of positive frequency), the state register
stays strictly below `2^32` after every step (stated for every prefix of
the source). -/
theorem rans_state_bound (F : List Nat) (table_log : Nat) (src : List Nat)
    (hR : table_log ≤ 15) (hsum : F.sum = 2 ^ table_log)
    (hsym : ∀ s ∈ src, s < F.length ∧ 1 ≤ F.getD s 0) :
    ∀ n : Nat, ((src.take n).foldl
        (encodeStepRans F (build_cumulative_function F) table_log)
        ⟨0, [], []⟩).state < 2 ^ 32 := by
  intro n
  have hmem : ∀ s ∈ src.take n, s < F.length ∧ 1 ≤ F.getD s 0 :=
    fun s hs => hsym s (List.take_subset n src hs)
  exact (rans_encode_inv F table_log (by omega) hsum (src.take n)
    ⟨0, [], []⟩ hmem ⟨by norm_num, fun _ => rfl⟩).1

/-- Witness for C8 at `F = [16, 16]`, `table_log = 5`, `src = [1, 0]`. -/
theorem rans_state_bound_witness :
    ((5:Nat) ≤ 15 ∧ ([16, 16]:List Nat).sum = 2 ^ 5 ∧
      (∀ s ∈ ([1, 0]:List Nat), s < ([16, 16]:List Nat).length ∧
        1 ≤ ([16, 16]:List Nat).getD s 0)) ∧
    ∀ n : Nat, ((([1, 0]:List Nat).take n).foldl
        (encodeStepRans [16, 16] (build_cumulative_function [16, 16]) 5)
        ⟨0, [], []⟩).state < 2 ^ 32 :=
  ⟨⟨by decide, by decide, by decide⟩,
    rans_state_bound [16, 16] 5 [1, 0] (by decide) (by decide) (by decide)⟩

/-! ## Histograms (`src/count.rs`)

Histograms are modelled as functions `Nat → Nat` (the Rust `[usize; 256]`
array; all indices touched are below 256 in every proved regime). -/

/-- `ret[c] += 1`. -/
def bump (h : Nat → Nat) (c : Nat) : Nat → Nat :=
  fun i => if i = c then h i + 1 else h i

theorem bump_apply (h : Nat → Nat) (x c : Nat) :
    bump h x c = h c + (if x = c then 1 else 0) := by
  unfold bump
  by_cases hxc : x = c
  · subst hxc; simp
  · have hcx : ¬ c = x := fun h' => hxc h'.symm
    simp [hxc, hcx]

/-- `simple_count_u8_inplace` (count.rs:2) on a zero-initialized histogram:
one pass incrementing `ret[c]` and tracking the running maximum symbol. -/
def simple_count_u8_inplace (src : List Nat) : (Nat → Nat) × Nat :=
  src.foldl (fun p c => (bump p.1 c, max p.2 c)) (fun _ => 0, 0)

/-- The four sub-histograms of `multi_bucket_count_u8` together with the
loop variable `index`. -/
structure Buckets where
  b1 : Nat → Nat
  b2 : Nat → Nat
  b3 : Nat → Nat
  b4 : Nat → Nat
  index : Nat

/-- The 4-way-unrolled main loop of `multi_bucket_count_u8` (count.rs:69):
`for i in (0..src.len() - 4).step_by(4)`, distributing `src[i..i+4]` over
the four buckets and recording `index = i + 4`.  The loop is embedded with
a fuel argument (structural recursion); `fuel = src.length` always
suffices, as proved in `mbMain_spec`. -/
def mbMain (src : List Nat) : Nat → Buckets → Buckets
  | 0, B => B
  | fuel + 1, B =>
    if B.index < src.length - 4 then
      mbMain src fuel
        ⟨bump B.b1 (src.getD B.index 0),
          bump B.b2 (src.getD (B.index + 1) 0),
          bump B.b3 (src.getD (B.index + 2) 0),
          bump B.b4 (src.getD (B.index + 3) 0),
          B.index + 4⟩
    else B

/-- The tail and summary phase of `multi_bucket_count_u8` (count.rs:80-91):
sweep the tail `index..src.len()` into bucket 1, sum the buckets into
`ret`, and report the largest index under 256 with a positive count. -/
def mbFinish (src : List Nat) (B : Buckets) : (Nat → Nat) × Nat :=
  let b1 := (List.range' B.index (src.length - B.index)).foldl
    (fun h i => bump h (src.getD i 0)) B.b1
  let ret := fun i => b1 i + B.b2 i + B.b3 i + B.b4 i
  (ret, (List.range 256).foldl (fun m i => if 0 < ret i then i else m) 0)

/-- `multi_bucket_count_u8` (count.rs:59): assert `src.len() >= 4`
(modelled as `none` on shorter input, where the Rust side panics), run the
unrolled main loop, then the tail sweep and bucket summation. -/
def multi_bucket_count_u8 (src : List Nat) : Option ((Nat → Nat) × Nat) :=
  if 4 ≤ src.length then
    some (mbFinish src (mbMain src src.length
      ⟨fun _ => 0, fun _ => 0, fun _ => 0, fun _ => 0, 0⟩))
  else none

theorem count_take_succ (src : List Nat) (i : Nat) (hi : i < src.length)
    (c : Nat) :
    (src.take (i + 1)).count c
      = (src.take i).count c + (if src.getD i 0 = c then 1 else 0) := by
  rw [List.take_succ, List.count_append]
  rw [List.getElem?_eq_getElem hi]
  rw [List.getD_eq_getElem src 0 hi]
  by_cases h : src[i] = c
  · simp [h]
  · have h2 : ¬ c = src[i] := fun h' => h h'.symm
    simp [h, h2]

theorem simple_fold_fst (src : List Nat) :
    ∀ (p : (Nat → Nat) × Nat) (c : Nat),
    (src.foldl (fun p c => (bump p.1 c, max p.2 c)) p).1 c
      = p.1 c + src.count c := by
  induction src with
  | nil => intro p c; simp
  | cons a t ih =>
    intro p c
    rw [List.foldl_cons, ih, List.count_cons]
    unfold bump
    by_cases hca : c = a
    · subst hca
      simp
      try omega
    · have h2 : ¬ a = c := fun h' => hca h'.symm
      simp [hca, h2]
      try omega

theorem simple_fold_snd (src : List Nat) :
    ∀ (p : (Nat → Nat) × Nat),
    (src.foldl (fun p c => (bump p.1 c, max p.2 c)) p).2
      = src.foldl max p.2 := by
  induction src with
  | nil => intro p; rfl
  | cons a t ih => intro p; rw [List.foldl_cons, ih, List.foldl_cons]

theorem foldl_max_init_le (src : List Nat) :
    ∀ a : Nat, a ≤ src.foldl max a := by
  induction src with
  | nil => intro a; simp
  | cons x t ih =>
    intro a
    rw [List.foldl_cons]
    calc a ≤ max a x := le_max_left a x
    _ ≤ t.foldl max (max a x) := ih (max a x)

theorem foldl_max_le (src : List Nat) :
    ∀ (a c : Nat), c ∈ src → c ≤ src.foldl max a := by
  induction src with
  | nil => intro a c hc; simp at hc
  | cons x t ih =>
    intro a c hc
    rw [List.foldl_cons]
    rcases List.mem_cons.mp hc with h | h
    · subst h
      calc c ≤ max a c := le_max_right a c
      _ ≤ t.foldl max (max a c) := foldl_max_init_le t (max a c)
    · exact ih (max a x) c h

theorem foldl_max_mem (src : List Nat) :
    ∀ a : Nat, src.foldl max a = a ∨ src.foldl max a ∈ src := by
  induction src with
  | nil => intro a; left; rfl
  | cons x t ih =>
    intro a
    rw [List.foldl_cons]
    rcases ih (max a x) with h | h
    · rcases max_choice a x with hm | hm
      · left; rw [h, hm]
      · right; rw [h, hm]; exact List.mem_cons_self x t
    · right; exact List.mem_cons_of_mem x h

/-- The main loop, given enough fuel, maintains the bucket-sum invariant
and finishes with `src.len() - 4 ≤ index ≤ src.len()`. -/
theorem mbMain_spec (src : List Nat) : ∀ (fuel : Nat) (B : Buckets),
    B.index ≤ src.length →
    src.length ≤ 4 * fuel + B.index + 4 →
    (∀ c, B.b1 c + B.b2 c + B.b3 c + B.b4 c = (src.take B.index).count c) →
    (∀ c, (mbMain src fuel B).b1 c + (mbMain src fuel B).b2 c
        + (mbMain src fuel B).b3 c + (mbMain src fuel B).b4 c
        = (src.take (mbMain src fuel B).index).count c)
    ∧ src.length - 4 ≤ (mbMain src fuel B).index
    ∧ (mbMain src fuel B).index ≤ src.length := by
  intro fuel
  induction fuel with
  | zero =>
    intro B hle hfuel hinv
    rw [mbMain]
    refine ⟨hinv, by omega, hle⟩
  | succ fuel ih =>
    intro B hle hfuel hinv
    by_cases hcond : B.index < src.length - 4
    case pos =>
      rw [mbMain, if_pos hcond]
      have h0 : B.index < src.length := by omega
      have h1 : B.index + 1 < src.length := by omega
      have h2 : B.index + 2 < src.length := by omega
      have h3 : B.index + 3 < src.length := by omega
      have hinv' : ∀ c, (bump B.b1 (src.getD B.index 0)) c
          + (bump B.b2 (src.getD (B.index + 1) 0)) c
          + (bump B.b3 (src.getD (B.index + 2) 0)) c
          + (bump B.b4 (src.getD (B.index + 3) 0)) c
          = (src.take (B.index + 4)).count c := by
        intro c
        simp only [bump_apply]
        have e0 := count_take_succ src B.index h0 c
        have e1 := count_take_succ src (B.index + 1) h1 c
        have e2 := count_take_succ src (B.index + 2) h2 c
        have e3 := count_take_succ src (B.index + 3) h3 c
        have hi := hinv c
        simp only [show B.index + 1 + 1 = B.index + 2 by omega,
          show B.index + 2 + 1 = B.index + 3 by omega,
          show B.index + 3 + 1 = B.index + 4 by omega] at e1 e2 e3
        omega
      exact ih ⟨bump B.b1 (src.getD B.index 0),
          bump B.b2 (src.getD (B.index + 1) 0),
          bump B.b3 (src.getD (B.index + 2) 0),
          bump B.b4 (src.getD (B.index + 3) 0), B.index + 4⟩
        (by show B.index + 4 ≤ src.length; omega)
        (by show src.length ≤ 4 * fuel + (B.index + 4) + 4; omega)
        hinv'
    case neg =>
      rw [mbMain, if_neg hcond]
      exact ⟨hinv, by omega, hle⟩

/-- Sweeping `range' start n` with `bump` adds the counts of the
corresponding segment of `src`. -/
theorem range'_bump_count (src : List Nat) : ∀ (n start : Nat)
    (h : Nat → Nat) (c : Nat), start + n ≤ src.length →
    ((List.range' start n).foldl (fun acc i => bump acc (src.getD i 0)) h) c
      = h c + ((src.drop start).take n).count c := by
  intro n
  induction n with
  | zero => intro start h c _; simp
  | succ n ih =>
    intro start h c hlen
    have hstart : start < src.length := by omega
    rw [List.range'_succ, List.foldl_cons]
    rw [ih (start + 1) _ c (by omega)]
    rw [List.drop_eq_getElem_cons hstart]
    rw [List.take_succ_cons, List.count_cons]
    rw [bump_apply]
    rw [List.getD_eq_getElem src 0 hstart]
    by_cases hc : src[start] = c
    · simp [hc]
      omega
    · simp [hc, fun h' : c = src[start] => hc h'.symm]

/-- The `0..256` sweep returns the largest index with a positive count. -/
theorem range_foldl_last (f : Nat → Nat) (M : Nat) : ∀ (n : Nat),
    M < n → 0 < f M → (∀ i, M < i → f i = 0) →
    (List.range n).foldl (fun m i => if 0 < f i then i else m) 0 = M := by
  intro n
  induction n with
  | zero => intro h; omega
  | succ n ih =>
    intro hMn hfM habove
    rw [List.range_succ, List.foldl_append, List.foldl_cons, List.foldl_nil]
    by_cases hM : M = n
    · subst hM
      rw [if_pos hfM]
    · have hlt : M < n := by omega
      have hfn : f n = 0 := habove n (by omega)
      rw [ih hlt hfM habove]
      rw [if_neg (by omega)]

theorem mbFinish_fst (src : List Nat) (B : Buckets)
    (hle : B.index ≤ src.length)
    (hsum : ∀ c, B.b1 c + B.b2 c + B.b3 c + B.b4 c
      = (src.take B.index).count c) (c : Nat) :
    (mbFinish src B).1 c = src.count c := by
  show ((List.range' B.index (src.length - B.index)).foldl
      (fun h i => bump h (src.getD i 0)) B.b1) c
      + B.b2 c + B.b3 c + B.b4 c = src.count c
  rw [range'_bump_count src (src.length - B.index) B.index B.b1 c (by omega)]
  have htake : (src.drop B.index).take (src.length - B.index)
      = src.drop B.index := by
    apply List.take_of_length_le
    rw [List.length_drop]
  have hc := hsum c
  rw [htake]
  have hsplit : src.count c
      = (src.take B.index).count c + (src.drop B.index).count c := by
    conv_lhs => rw [← List.take_append_drop B.index src]
    rw [List.count_append]
  omega

theorem foldl_max_zero_mem (src : List Nat) (hne : src ≠ []) :
    src.foldl max 0 ∈ src := by
  rcases foldl_max_mem src 0 with h | h
  · cases src with
    | nil => exact absurd rfl hne
    | cons a t =>
      have ha : a ≤ (a :: t).foldl max 0 :=
        foldl_max_le (a :: t) 0 a (List.mem_cons_self a t)
      rw [h] at ha
      have : a = 0 := by omega
      rw [h, ← this]
      exact List.mem_cons_self a t
  · exact h

set_option maxRecDepth 4000 in
theorem mbFinish_snd (src : List Nat) (B : Buckets)
    (hle : B.index ≤ src.length)
    (hsum : ∀ c, B.b1 c + B.b2 c + B.b3 c + B.b4 c
      = (src.take B.index).count c)
    (hb : ∀ s ∈ src, s < 256) (hne : src ≠ []) :
    (mbFinish src B).2 = src.foldl max 0 := by
  have hfst : ∀ c, (mbFinish src B).1 c = src.count c :=
    mbFinish_fst src B hle hsum
  show (List.range 256).foldl
      (fun m i => if 0 < (mbFinish src B).1 i then i else m) 0
      = src.foldl max 0
  have hmem : src.foldl max 0 ∈ src := foldl_max_zero_mem src hne
  apply range_foldl_last
  · exact hb _ hmem
  · rw [hfst]
    exact List.count_pos_iff.mpr hmem
  · intro i hi
    rw [hfst]
    have hnotmem : i ∉ src := by
      intro hmem'
      have := foldl_max_le src 0 i hmem'
      omega
    exact List.count_eq_zero.mpr hnotmem

/-- C6 (amended): on inputs of length at least 4 (over byte values), the
4-way-unrolled `multi_bucket_count_u8` produces exactly the same histogram
and the same `max_symbol` as the scalar `simple_count_u8_inplace`, both
starting from a fresh all-zero histogram as in the repository's tests. -/
theorem multi_bucket_count_eq (src : List Nat) (h4 : 4 ≤ src.length)
    (hb : ∀ s ∈ src, s < 256) :
    multi_bucket_count_u8 src = some (simple_count_u8_inplace src) := by
  have hne : src ≠ [] := by
    intro h
    rw [h] at h4
    simp at h4
  unfold multi_bucket_count_u8
  rw [if_pos h4]
  have hmb := mbMain_spec src src.length
    ⟨fun _ => 0, fun _ => 0, fun _ => 0, fun _ => 0, 0⟩
    (by show (0:Nat) ≤ src.length; omega)
    (by show src.length ≤ 4 * src.length + 0 + 4; omega)
    (by intro c; show (0:Nat) + 0 + 0 + 0 = ((src.take 0).count c); simp)
  obtain ⟨hsum, _, hle⟩ := hmb
  congr 1
  have h1 : ∀ c, (mbFinish src (mbMain src src.length
      ⟨fun _ => 0, fun _ => 0, fun _ => 0, fun _ => 0, 0⟩)).1 c
      = src.count c :=
    mbFinish_fst src _ hle hsum
  have h2 : (mbFinish src (mbMain src src.length
      ⟨fun _ => 0, fun _ => 0, fun _ => 0, fun _ => 0, 0⟩)).2
      = src.foldl max 0 :=
    mbFinish_snd src _ hle hsum hb hne
  have hs1 : ∀ c, (simple_count_u8_inplace src).1 c = src.count c := by
    intro c
    unfold simple_count_u8_inplace
    rw [simple_fold_fst]
    simp
  have hs2 : (simple_count_u8_inplace src).2 = src.foldl max 0 := by
    unfold simple_count_u8_inplace
    rw [simple_fold_snd]
  apply Prod.ext
  · funext c
    rw [h1 c, hs1 c]
  · rw [h2, hs2]

/-- Counterexample to C6 as stated: on the 3-byte input `[1, 2, 3]`
(length not a multiple of 4), `multi_bucket_count_u8` hits its
`assert!(src.len() >= 4)` and panics (modelled `none`), while the scalar
counter succeeds with `max_symbol = 3`. -/
theorem multi_bucket_count_counterexample :
    multi_bucket_count_u8 [1, 2, 3] = none ∧
      (simple_count_u8_inplace [1, 2, 3]).2 = 3 := by
  constructor
  · unfold multi_bucket_count_u8
    rw [if_neg (by decide)]
  · show max (max (max 0 1) 2) 3 = 3
    decide

/-- Witness for the amended C6 at the test input `[1, 2, 3, 4, 5]`
(count.rs test `correctness_multi_bucket_count`). -/
theorem multi_bucket_count_eq_witness :
    (4 ≤ ([1, 2, 3, 4, 5]:List Nat).length ∧
      ∀ s ∈ ([1, 2, 3, 4, 5]:List Nat), s < 256) ∧
    multi_bucket_count_u8 [1, 2, 3, 4, 5]
      = some (simple_count_u8_inplace [1, 2, 3, 4, 5]) :=
  ⟨⟨by decide, by decide⟩,
    multi_bucket_count_eq [1, 2, 3, 4, 5] (by decide) (by decide)⟩

/-! ## Spread functions (`src/spreads.rs`)

Spread tables are `Vec<u8>` of length `2 ^ table_log`; the `i as u8` cast
is modelled as `i % 256`.  In every proved regime all written symbol
indices are below 256 and all positions are in bounds. -/

/-- The `while ret[pos] != 0` scan of the step-spread loops: advance
`pos = (pos + 1) % table_size` until a slot holding 0 is found.  Embedded
with fuel; `ret.length` steps always suffice when a slot holding 0 exists
(`scanFree_finds`); with no such slot the Rust loop diverges. -/
def scanFree (ret : List Nat) : Nat → Nat → Nat
  | 0, pos => pos
  | fuel + 1, pos =>
    if ret.getD pos 0 ≠ 0 then scanFree ret fuel ((pos + 1) % ret.length)
    else pos

/-- The inner `for _ in 0..count` of the step-spread loops: find the first
free slot from `pos`, write `i as u8` there, then advance the cursor by
`step` modulo the table size. -/
def placeSymbol (stepv i : Nat) : Nat → List Nat × Nat → List Nat × Nat
  | 0, st => st
  | k + 1, (ret, pos) =>
    placeSymbol stepv i k
      (ret.set (scanFree ret ret.length pos) (i % 256),
        (scanFree ret ret.length pos + stepv) % ret.length)

/-- The common outer loop of `fse_spread`, `fast_spread_2` and
`fse_spread_unsorted` over the `(index, count)` pairs. -/
def spreadLoop (stepv : Nat) :
    List (Nat × Nat) → List Nat × Nat → List Nat × Nat
  | [], st => st
  | (i, c) :: rest, st => spreadLoop stepv rest (placeSymbol stepv i c st)

/-- `hist.iter().enumerate().filter(|(_, count)| **count > 0)`, with the
enumeration starting at index `n`. -/
def spreadSyms : Nat → List Nat → List (Nat × Nat)
  | _, [] => []
  | n, c :: t =>
    if 0 < c then (n, c) :: spreadSyms (n + 1) t else spreadSyms (n + 1) t

/-- `fse_spread` (spreads.rs:31): step-spread with
`step = (1 << (table_log - 1)) + (1 << (table_log - 3)) + 1`.  For
`table_log < 3` the Rust shift amount underflows and panics; `Nat`
subtraction truncates instead, so all theorems assume `3 ≤ table_log`. -/
def fse_spread (sorted_hist : List Nat) (table_log : Nat) : List Nat :=
  (spreadLoop ((1 <<< (table_log - 1)) + (1 <<< (table_log - 3)) + 1)
    (spreadSyms 0 sorted_hist)
    (List.replicate (1 <<< table_log) 0, 0)).1

/-- `fast_spread_2` (spreads.rs:54): step-spread with
`step = ((5 * table_size) >> 3) + 3`. -/
def fast_spread_2 (sorted_hist : List Nat) (table_log : Nat) : List Nat :=
  (spreadLoop ((5 * (1 <<< table_log)) >>> 3 + 3)
    (spreadSyms 0 sorted_hist)
    (List.replicate (1 <<< table_log) 0, 0)).1

/-- `fse_spread_unsorted` (spreads.rs:78): sort the filtered
`(index, count)` pairs by descending count (`sort_by` with `b.cmp(a)` is a
stable descending sort, modelled by a stable `mergeSort`), then run the
same step-spread loop as `fse_spread`. -/
def fse_spread_unsorted (hist : List Nat) (table_log : Nat) : List Nat :=
  (spreadLoop ((1 <<< (table_log - 1)) + (1 <<< (table_log - 3)) + 1)
    ((spreadSyms 0 hist).mergeSort (fun p q => decide (q.2 ≤ p.2)))
    (List.replicate (1 <<< table_log) 0, 0)).1

/-- `u32::reverse_bits` restricted to the low `w` bits. -/
def reverseBits : Nat → Nat → Nat
  | 0, _ => 0
  | w + 1, v => v % 2 * 2 ^ w + reverseBits w (v / 2)

/-- The inner loop of `bit_reverse_spread` (spreads.rs:105):
`ret[(s.reverse_bits() >> (32 - table_log))] = i as u8; s += 1`. -/
def brPlace (table_log i : Nat) : Nat → List Nat × Nat → List Nat × Nat
  | 0, st => st
  | k + 1, (ret, s) =>
    brPlace table_log i k
      (ret.set (reverseBits 32 s >>> (32 - table_log)) (i % 256), s + 1)

/-- Outer loop of `bit_reverse_spread` over the `(index, count)` pairs. -/
def brLoop (table_log : Nat) :
    List (Nat × Nat) → List Nat × Nat → List Nat × Nat
  | [], st => st
  | (i, c) :: rest, st => brLoop table_log rest (brPlace table_log i c st)

/-- `bit_reverse_spread` (spreads.rs:105). -/
def bit_reverse_spread (sorted_hist : List Nat) (table_log : Nat) :
    List Nat :=
  (brLoop table_log (spreadSyms 0 sorted_hist)
    (List.replicate (1 <<< table_log) 0, 0)).1

/-- For `3 ≤ R` the `fse_spread` step constant is `5·2^R/8 + 1`. -/
theorem fse_step_eq (R : Nat) (hR : 3 ≤ R) :
    (1 <<< (R - 1)) + (1 <<< (R - 3)) + 1 = 5 * 2 ^ R / 8 + 1 := by
  obtain ⟨m, rfl⟩ : ∃ m, R = m + 3 := ⟨R - 3, by omega⟩
  rw [Nat.shiftLeft_eq, Nat.shiftLeft_eq]
  have h1 : m + 3 - 1 = m + 2 := by omega
  have h3 : m + 3 - 3 = m := by omega
  rw [h1, h3]
  have hpow : (2:Nat) ^ (m + 3) = 2 ^ m * 8 := by
    rw [pow_add]
    norm_num
  rw [hpow]
  have hdiv : 5 * (2 ^ m * 8) / 8 = 5 * 2 ^ m := by
    rw [← Nat.mul_assoc, Nat.mul_div_cancel]
    omega
  rw [hdiv]
  have h2 : (2:Nat) ^ (m + 2) = 2 ^ m * 4 := by
    rw [pow_add]
    norm_num
  rw [h2]
  ring

/-- The `fast_spread_2` step constant is `5·2^R/8 + 3`. -/
theorem fast_spread_2_step_eq (R : Nat) :
    (5 * (1 <<< R)) >>> 3 + 3 = 5 * 2 ^ R / 8 + 3 := by
  rw [Nat.shiftLeft_eq, Nat.one_mul, Nat.shiftRight_eq_div_pow]

/-- C9 (amended): the step-spread variants all start at `pos = 0` and
advance the cursor through the shared first-free-slot loop, but with two
different step constants: `fse_spread` and `fse_spread_unsorted` use
`step = 5·2^R/8 + 1` (from `(1 << (R-1)) + (1 << (R-3)) + 1`), while only
`fast_spread_2` uses `step = 5·2^R/8 + 3`. -/
theorem step_spread_steps (hist : List Nat) (table_log : Nat)
    (hR : 3 ≤ table_log) :
    fse_spread hist table_log
      = (spreadLoop (5 * 2 ^ table_log / 8 + 1) (spreadSyms 0 hist)
          (List.replicate (2 ^ table_log) 0, 0)).1
    ∧ fast_spread_2 hist table_log
      = (spreadLoop (5 * 2 ^ table_log / 8 + 3) (spreadSyms 0 hist)
          (List.replicate (2 ^ table_log) 0, 0)).1
    ∧ fse_spread_unsorted hist table_log
      = (spreadLoop (5 * 2 ^ table_log / 8 + 1)
          ((spreadSyms 0 hist).mergeSort (fun p q => decide (q.2 ≤ p.2)))
          (List.replicate (2 ^ table_log) 0, 0)).1 := by
  unfold fse_spread fast_spread_2 fse_spread_unsorted
  rw [fse_step_eq table_log hR, fast_spread_2_step_eq table_log,
    Nat.one_shiftLeft]
  exact ⟨rfl, rfl, rfl⟩

/-- Witness for the amended C9 at `hist = [0, 16, 16]`, `table_log = 5`. -/
theorem step_spread_steps_witness :
    3 ≤ 5 ∧
    (fse_spread [0, 16, 16] 5
      = (spreadLoop (5 * 2 ^ 5 / 8 + 1) (spreadSyms 0 [0, 16, 16])
          (List.replicate (2 ^ 5) 0, 0)).1
    ∧ fast_spread_2 [0, 16, 16] 5
      = (spreadLoop (5 * 2 ^ 5 / 8 + 3) (spreadSyms 0 [0, 16, 16])
          (List.replicate (2 ^ 5) 0, 0)).1
    ∧ fse_spread_unsorted [0, 16, 16] 5
      = (spreadLoop (5 * 2 ^ 5 / 8 + 1)
          ((spreadSyms 0 [0, 16, 16]).mergeSort
            (fun p q => decide (q.2 ≤ p.2)))
          (List.replicate (2 ^ 5) 0, 0)).1) :=
  ⟨by decide, step_spread_steps [0, 16, 16] 5 (by decide)⟩

/-- Counterexample to C9 as stated: `fse_spread` does not advance its
cursor by `5·2^R/8 + 3`; at `hist = [0, 16, 16]`, `R = 5` its output
differs from the step-spread loop run with that constant. -/
theorem step_spread_counterexample :
    fse_spread [0, 16, 16] 5
      ≠ (spreadLoop (5 * 2 ^ 5 / 8 + 3) (spreadSyms 0 [0, 16, 16])
          (List.replicate (2 ^ 5) 0, 0)).1 := by
  decide

theorem set_zero_of_getD (l : List Nat) : ∀ p : Nat,
    l.getD p 0 = 0 → l.set p 0 = l := by
  induction l with
  | nil => intro p _; rfl
  | cons a t ih =>
    intro p hp
    cases p with
    | zero =>
      simp only [List.getD_cons_zero] at hp
      rw [hp]
      rfl
    | succ q =>
      rw [List.set_cons_succ]
      rw [ih q (by simpa using hp)]

theorem getD_set_ne (l : List Nat) (p q v : Nat) (hne : p ≠ q) :
    (l.set p v).getD q 0 = l.getD q 0 := by
  by_cases hq : q < l.length
  · rw [List.getD_eq_getElem _ 0 (by simpa using hq),
      List.getD_eq_getElem _ 0 hq]
    exact List.getElem_set_ne hne _
  · rw [List.getD_eq_default _ 0 (by simpa using Nat.le_of_not_lt hq),
      List.getD_eq_default _ 0 (Nat.le_of_not_lt hq)]

/-- `scanFree` finds a slot holding 0 within `fuel` steps whenever one
exists at forward cyclic distance below `fuel`. -/
theorem scanFree_finds (ret : List Nat) : ∀ (fuel pos j : Nat),
    pos < ret.length → j < ret.length → ret.getD j 0 = 0 →
    (if pos ≤ j then j - pos else j + ret.length - pos) < fuel →
    scanFree ret fuel pos < ret.length
    ∧ ret.getD (scanFree ret fuel pos) 0 = 0 := by
  intro fuel
  induction fuel with
  | zero =>
    intro pos j hpos hj hjz hd
    exact absurd hd (Nat.not_lt_zero _)
  | succ fuel ih =>
    intro pos j hpos hj hjz hd
    rw [scanFree]
    by_cases hocc : ret.getD pos 0 ≠ 0
    · rw [if_pos hocc]
      have hpj : pos ≠ j := fun h => hocc (h ▸ hjz)
      have hlen : 0 < ret.length := by omega
      have hpos' : (pos + 1) % ret.length < ret.length := Nat.mod_lt _ hlen
      apply ih ((pos + 1) % ret.length) j hpos' hj hjz
      by_cases hwrap : pos + 1 < ret.length
      · rw [Nat.mod_eq_of_lt hwrap]
        by_cases hle : pos ≤ j
        · have hlt : pos < j := by omega
          rw [if_pos hle] at hd
          rw [if_pos (by omega : pos + 1 ≤ j)]
          omega
        · rw [if_neg hle] at hd
          rw [if_neg (by omega)]
          omega
      · have hlen1 : pos + 1 = ret.length := by omega
        have hzero : (pos + 1) % ret.length = 0 := by
          rw [hlen1, Nat.mod_self]
        rw [hzero, if_pos (Nat.zero_le j)]
        have hjlt : j < pos := by omega
        rw [if_neg (by omega)] at hd
        omega
    · rw [if_neg hocc]
      push_neg at hocc
      exact ⟨hpos, hocc⟩

theorem exists_zero_slot (ret : List Nat) (h : 0 < ret.count 0) :
    ∃ j, j < ret.length ∧ ret.getD j 0 = 0 := by
  have hmem : (0:Nat) ∈ ret := List.count_pos_iff.mp h
  obtain ⟨n, hn, he⟩ := List.mem_iff_getElem.mp hmem
  exact ⟨n, hn, by rw [List.getD_eq_getElem _ 0 hn]; exact he⟩

theorem scanFree_len (ret : List Nat) (pos : Nat) (hpos : pos < ret.length)
    (hfree : 0 < ret.count 0) :
    scanFree ret ret.length pos < ret.length
    ∧ ret.getD (scanFree ret ret.length pos) 0 = 0 := by
  obtain ⟨j, hj, hjz⟩ := exists_zero_slot ret hfree
  apply scanFree_finds ret ret.length pos j hpos hj hjz
  by_cases h : pos ≤ j
  · rw [if_pos h]; omega
  · rw [if_neg h]; omega

theorem count_set_zero_slot (ret : List Nat) (p v : Nat)
    (hp : p < ret.length) (hz : ret.getD p 0 = 0) (w : Nat) :
    (ret.set p v).count w
      = ret.count w - (if w = 0 then 1 else 0)
        + (if v = w then 1 else 0) := by
  have hpe : ret[p] = 0 := by
    rw [← List.getD_eq_getElem ret 0 hp]
    exact hz
  rw [List.count_set v w ret p hp, hpe]
  congr 1
  · congr 1
    by_cases hw : w = 0
    · subst hw; simp
    · have h2 : ¬ (0:Nat) = w := fun h' => hw h'.symm
      simp [hw, h2]
  · by_cases hv : v = w
    · subst hv; simp
    · simp [hv]

theorem placeSymbol_spec (stepv i : Nat) (hi : i < 256) (hiz : i ≠ 0) :
    ∀ (k : Nat) (ret : List Nat) (pos : Nat),
    pos < ret.length → k ≤ ret.count 0 →
    (placeSymbol stepv i k (ret, pos)).1.length = ret.length
    ∧ (placeSymbol stepv i k (ret, pos)).1.count i = ret.count i + k
    ∧ (placeSymbol stepv i k (ret, pos)).1.count 0 = ret.count 0 - k
    ∧ (∀ v, v ≠ i → v ≠ 0 →
        (placeSymbol stepv i k (ret, pos)).1.count v = ret.count v)
    ∧ (placeSymbol stepv i k (ret, pos)).2 < ret.length := by
  intro k
  induction k with
  | zero =>
    intro ret pos hpos _
    refine ⟨rfl, ?_, ?_, fun v _ _ => rfl, hpos⟩
    · show ret.count i = ret.count i + 0
      omega
    · show ret.count 0 = ret.count 0 - 0
      omega
  | succ k ih =>
    intro ret pos hpos hcnt
    have hfree : 0 < ret.count 0 := by omega
    obtain ⟨hplt, hpz⟩ := scanFree_len ret pos hpos hfree
    rw [placeSymbol]
    have hmod : i % 256 = i := Nat.mod_eq_of_lt hi
    rw [hmod]
    have hlen' : (ret.set (scanFree ret ret.length pos) i).length
        = ret.length := List.length_set ret _ i
    have hcounts := count_set_zero_slot ret (scanFree ret ret.length pos) i
      hplt hpz
    have hc0 : (ret.set (scanFree ret ret.length pos) i).count 0
        = ret.count 0 - 1 := by
      rw [hcounts 0]
      simp [hiz]
    have hci : (ret.set (scanFree ret ret.length pos) i).count i
        = ret.count i + 1 := by
      rw [hcounts i]
      simp [hiz]
    have hcv : ∀ v, v ≠ i → v ≠ 0 →
        (ret.set (scanFree ret ret.length pos) i).count v = ret.count v := by
      intro v hvi hv0
      rw [hcounts v]
      have h2 : ¬ i = v := fun h' => hvi h'.symm
      simp [hv0, h2]
    have hpos' : (scanFree ret ret.length pos + stepv) % ret.length
        < ret.length := Nat.mod_lt _ (by omega)
    have hpos'' : (scanFree ret ret.length pos + stepv) % ret.length
        < (ret.set (scanFree ret ret.length pos) i).length := by
      rw [hlen']
      exact hpos'
    obtain ⟨r1, r2, r3, r4, r5⟩ := ih (ret.set (scanFree ret ret.length pos) i)
      ((scanFree ret ret.length pos + stepv) % ret.length)
      hpos''
      (by rw [hc0]; omega)
    rw [hlen'] at r5
    refine ⟨by rw [r1, hlen'], ?_, ?_, ?_, r5⟩
    · rw [r2, hci]; omega
    · rw [r3, hc0]; omega
    · intro v hvi hv0
      rw [r4 v hvi hv0, hcv v hvi hv0]

theorem placeSymbol_zero (stepv : Nat) : ∀ (k : Nat) (ret : List Nat)
    (pos : Nat), pos < ret.length → 0 < ret.count 0 →
    (placeSymbol stepv 0 k (ret, pos)).1 = ret
    ∧ (placeSymbol stepv 0 k (ret, pos)).2 < ret.length := by
  intro k
  induction k with
  | zero =>
    intro ret pos hpos _
    rw [placeSymbol]
    exact ⟨rfl, hpos⟩
  | succ k ih =>
    intro ret pos hpos hfree
    obtain ⟨hplt, hpz⟩ := scanFree_len ret pos hpos hfree
    rw [placeSymbol]
    have hset : ret.set (scanFree ret ret.length pos) (0 % 256) = ret := by
      show ret.set (scanFree ret ret.length pos) 0 = ret
      exact set_zero_of_getD ret _ hpz
    rw [hset]
    exact ih ret _ (Nat.mod_lt _ (by omega)) hfree

/-- Per-symbol running totals of a `(index, count)` list. -/
def symContrib (syms : List (Nat × Nat)) (v : Nat) : Nat :=
  ((syms.filter (fun p => p.1 == v)).map Prod.snd).sum

/-- Total count carried by nonzero symbols of a `(index, count)` list. -/
def nzSum (syms : List (Nat × Nat)) : Nat :=
  ((syms.filter (fun p => p.1 != 0)).map Prod.snd).sum

theorem symContrib_cons (i c v : Nat) (rest : List (Nat × Nat)) :
    symContrib ((i, c) :: rest) v
      = (if i = v then c else 0) + symContrib rest v := by
  unfold symContrib
  by_cases h : i = v
  · simp [List.filter_cons, h]
  · simp [List.filter_cons, h]

theorem nzSum_cons (i c : Nat) (rest : List (Nat × Nat)) :
    nzSum ((i, c) :: rest) = (if i = 0 then 0 else c) + nzSum rest := by
  unfold nzSum
  by_cases h : i = 0
  · simp [List.filter_cons, h]
  · simp [List.filter_cons, h]

theorem spreadSyms_mem (F : List Nat) : ∀ (n : Nat) (p : Nat × Nat),
    p ∈ spreadSyms n F →
    n ≤ p.1 ∧ p.1 < n + F.length ∧ p.2 = F.getD (p.1 - n) 0 ∧ 0 < p.2 := by
  induction F with
  | nil =>
    intro n p hp
    simp [spreadSyms] at hp
  | cons c t ih =>
    intro n p hp
    rw [spreadSyms] at hp
    by_cases hc : 0 < c
    · rw [if_pos hc] at hp
      rcases List.mem_cons.mp hp with h | h
      · subst h
        refine ⟨le_refl n, by simp, by simp, hc⟩
      · obtain ⟨h1, h2, h3, h4⟩ := ih (n + 1) p h
        refine ⟨by omega, by simp only [List.length_cons]; omega, ?_, h4⟩
        rw [h3]
        have he : p.1 - n = (p.1 - (n + 1)) + 1 := by omega
        rw [he, List.getD_cons_succ]
    · rw [if_neg hc] at hp
      obtain ⟨h1, h2, h3, h4⟩ := ih (n + 1) p hp
      refine ⟨by omega, by simp only [List.length_cons]; omega, ?_, h4⟩
      rw [h3]
      have he : p.1 - n = (p.1 - (n + 1)) + 1 := by omega
      rw [he, List.getD_cons_succ]

theorem symContrib_spreadSyms (F : List Nat) : ∀ (n v : Nat),
    symContrib (spreadSyms n F) v
      = if n ≤ v then F.getD (v - n) 0 else 0 := by
  induction F with
  | nil =>
    intro n v
    rw [spreadSyms]
    unfold symContrib
    by_cases h : n ≤ v <;> simp [h]
  | cons c t ih =>
    intro n v
    rw [spreadSyms]
    by_cases hc : 0 < c
    · rw [if_pos hc, symContrib_cons, ih (n + 1) v]
      by_cases hnv : n = v
      · subst hnv
        rw [if_pos rfl, if_neg (by omega), if_pos (le_refl n)]
        simp
      · rw [if_neg hnv]
        by_cases hle : n + 1 ≤ v
        · rw [if_pos hle, if_pos (by omega)]
          have he : v - n = (v - (n + 1)) + 1 := by omega
          rw [he, List.getD_cons_succ]
          omega
        · rw [if_neg hle]
          by_cases h2 : n ≤ v
          · exfalso; omega
          · rw [if_neg h2]
    · rw [if_neg hc, ih (n + 1) v]
      have hc0 : c = 0 := by omega
      by_cases hnv : n = v
      · subst hnv
        rw [if_neg (by omega), if_pos (le_refl n)]
        simp [hc0]
      · by_cases hle : n + 1 ≤ v
        · rw [if_pos hle, if_pos (by omega)]
          have he : v - n = (v - (n + 1)) + 1 := by omega
          rw [he, List.getD_cons_succ]
        · rw [if_neg hle]
          by_cases h2 : n ≤ v
          · exfalso; omega
          · rw [if_neg h2]

theorem nzSum_spreadSyms (F : List Nat) : ∀ n : Nat,
    nzSum (spreadSyms n F) + (if n = 0 then F.getD 0 0 else 0)
      = F.sum := by
  induction F with
  | nil =>
    intro n
    rw [spreadSyms]
    unfold nzSum
    by_cases h : n = 0 <;> simp [h]
  | cons c t ih =>
    intro n
    rw [spreadSyms]
    by_cases hc : 0 < c
    · rw [if_pos hc, nzSum_cons]
      have iht := ih (n + 1)
      rw [if_neg (by omega)] at iht
      by_cases hn : n = 0
      · subst hn
        rw [if_pos rfl, if_pos rfl]
        simp only [List.getD_cons_zero, List.sum_cons]
        omega
      · rw [if_neg hn, if_neg hn]
        simp only [List.sum_cons]
        omega
    · rw [if_neg hc]
      have iht := ih (n + 1)
      rw [if_neg (by omega)] at iht
      have hc0 : c = 0 := by omega
      by_cases hn : n = 0
      · subst hn
        rw [if_pos rfl]
        simp only [List.getD_cons_zero, List.sum_cons]
        omega
      · rw [if_neg hn]
        simp only [List.sum_cons]
        omega

theorem spreadLoop_spec (stepv : Nat) : ∀ (syms : List (Nat × Nat))
    (ret : List Nat) (pos : Nat),
    (∀ p ∈ syms, p.1 < 256) →
    pos < ret.length →
    nzSum syms ≤ ret.count 0 →
    ((∃ p ∈ syms, p.1 = 0) → nzSum syms < ret.count 0) →
    (spreadLoop stepv syms (ret, pos)).1.length = ret.length
    ∧ (∀ v, v ≠ 0 → (spreadLoop stepv syms (ret, pos)).1.count v
        = ret.count v + symContrib syms v)
    ∧ (spreadLoop stepv syms (ret, pos)).1.count 0
        = ret.count 0 - nzSum syms := by
  intro syms
  induction syms with
  | nil =>
    intro ret pos _ _ _ _
    rw [spreadLoop]
    refine ⟨rfl, fun v _ => ?_, ?_⟩
    · unfold symContrib
      simp
    · unfold nzSum
      simp
  | cons hd rest ih =>
    obtain ⟨i, c⟩ := hd
    intro ret pos h256 hpos hnz hz
    rw [spreadLoop]
    by_cases hi0 : i = 0
    · subst hi0
      have hfree : 0 < ret.count 0 := by
        have := hz ⟨(0, c), List.mem_cons_self _ _, rfl⟩
        omega
      obtain ⟨hT, hP⟩ := placeSymbol_zero stepv c ret pos hpos hfree
      have hpair : placeSymbol stepv 0 c (ret, pos)
          = (ret, (placeSymbol stepv 0 c (ret, pos)).2) := Prod.ext hT rfl
      rw [hpair]
      have hnzc : nzSum ((0, c) :: rest) = nzSum rest := by
        rw [nzSum_cons]
        simp
      obtain ⟨r1, r2, r3⟩ := ih ret ((placeSymbol stepv 0 c (ret, pos)).2)
        (fun p hp => h256 p (List.mem_cons_of_mem _ hp)) hP
        (by rw [hnzc] at hnz; exact hnz)
        (fun ⟨p, hp, hp0⟩ => by
          rw [← hnzc]
          exact hz ⟨p, List.mem_cons_of_mem _ hp, hp0⟩)
      refine ⟨r1, ?_, ?_⟩
      · intro v hv
        rw [r2 v hv, symContrib_cons]
        have h0v : ¬ (0:Nat) = v := fun h' => hv h'.symm
        rw [if_neg h0v]
        omega
      · rw [r3, hnzc]
    · have hcle : c ≤ ret.count 0 := by
        have h := hnz
        rw [nzSum_cons, if_neg hi0] at h
        omega
      obtain ⟨hlen', hci, hc0, hcv, hpos'⟩ :=
        placeSymbol_spec stepv i (h256 (i, c) (List.mem_cons_self _ _))
          hi0 c ret pos hpos hcle
      have hpair : placeSymbol stepv i c (ret, pos)
          = ((placeSymbol stepv i c (ret, pos)).1,
            (placeSymbol stepv i c (ret, pos)).2) := rfl
      rw [hpair]
      obtain ⟨r1, r2, r3⟩ := ih (placeSymbol stepv i c (ret, pos)).1
        (placeSymbol stepv i c (ret, pos)).2
        (fun p hp => h256 p (List.mem_cons_of_mem _ hp))
        (by rw [hlen']; exact hpos')
        (by
          rw [hc0]
          have h := hnz
          rw [nzSum_cons, if_neg hi0] at h
          omega)
        (fun ⟨p, hp, hp0⟩ => by
          rw [hc0]
          have h := hz ⟨p, List.mem_cons_of_mem _ hp, hp0⟩
          rw [nzSum_cons, if_neg hi0] at h
          omega)
      refine ⟨by rw [r1, hlen'], ?_, ?_⟩
      · intro v hv
        rw [r2 v hv, symContrib_cons]
        by_cases hiv : i = v
        · subst hiv
          rw [if_pos rfl, hci]
          omega
        · rw [if_neg hiv, hcv v (fun h' => hiv h'.symm) hv]
          omega
      · rw [r3, hc0, nzSum_cons, if_neg hi0]
        omega

/-- Any step-spread (regardless of step constant) over a normalized
histogram fills the table with exactly `F[s]` copies of every symbol. -/
theorem stepSpread_count (stepv : Nat) (F : List Nat) (L : Nat)
    (hsum : F.sum = L) (hL : 0 < L) (hlen : F.length ≤ 256) :
    (spreadLoop stepv (spreadSyms 0 F) (List.replicate L 0, 0)).1.length = L
    ∧ ∀ s, (spreadLoop stepv (spreadSyms 0 F)
        (List.replicate L 0, 0)).1.count s = F.getD s 0 := by
  have hc0 : (List.replicate L (0:Nat)).count 0 = L := by
    simp [List.count_replicate]
  have hcv : ∀ v : Nat, v ≠ 0 → (List.replicate L (0:Nat)).count v = 0 := by
    intro v hv
    have h2 : ¬ (0:Nat) = v := fun h' => hv h'.symm
    simp [List.count_replicate, h2]
  have hlenr : (List.replicate L (0:Nat)).length = L := by simp
  have hnzk := nzSum_spreadSyms F 0
  rw [if_pos rfl] at hnzk
  obtain ⟨r1, r2, r3⟩ := spreadLoop_spec stepv (spreadSyms 0 F)
    (List.replicate L 0) 0
    (fun p hp => by
      have := (spreadSyms_mem F 0 p hp).2.1
      omega)
    (by rw [hlenr]; exact hL)
    (by rw [hc0]; omega)
    (fun ⟨p, hp, hp0⟩ => by
      rw [hc0]
      obtain ⟨_, _, hval, hposv⟩ := spreadSyms_mem F 0 p hp
      rw [hp0] at hval
      simp only [Nat.sub_zero] at hval
      omega)
  refine ⟨by rw [r1, hlenr], fun s => ?_⟩
  by_cases hs : s = 0
  · subst hs
    rw [r3, hc0]
    omega
  · rw [r2 s hs, hcv s hs, symContrib_spreadSyms F 0 s,
      if_pos (Nat.zero_le s)]
    simp

/-! ### Bit-reverse spread -/

theorem reverseBits_zero : ∀ w : Nat, reverseBits w 0 = 0 := by
  intro w
  induction w with
  | zero => rfl
  | succ w ih => rw [reverseBits]; simp [ih]

theorem reverseBits_lt : ∀ (w v : Nat), reverseBits w v < 2 ^ w := by
  intro w
  induction w with
  | zero => intro v; rw [reverseBits]; norm_num
  | succ w ih =>
    intro v
    rw [reverseBits]
    have h1 := ih (v / 2)
    have h2 : v % 2 ≤ 1 := by omega
    have h3 : v % 2 * 2 ^ w ≤ 2 ^ w := by
      calc v % 2 * 2 ^ w ≤ 1 * 2 ^ w := Nat.mul_le_mul_right _ h2
      _ = 2 ^ w := Nat.one_mul _
    have h4 : (2:Nat) ^ (w + 1) = 2 ^ w + 2 ^ w := by
      rw [pow_succ]
      omega
    omega

theorem reverseBits_shift (w : Nat) : ∀ (R s : Nat), s < 2 ^ R →
    reverseBits (R + w) s = reverseBits R s * 2 ^ w := by
  intro R
  induction R with
  | zero =>
    intro s hs
    have hs0 : s = 0 := by
      have : (2:Nat) ^ 0 = 1 := rfl
      omega
    subst hs0
    rw [Nat.zero_add, reverseBits_zero, reverseBits]
    rw [Nat.zero_mul]
  | succ R ih =>
    intro s hs
    have h1 : R + 1 + w = (R + w) + 1 := by omega
    rw [h1, reverseBits, reverseBits]
    have hdiv : s / 2 < 2 ^ R := by
      have hp : (2:Nat) ^ (R + 1) = 2 ^ R * 2 := by rw [pow_succ]
      omega
    rw [ih (s / 2) hdiv, pow_add]
    ring

theorem reverseBits32_shift (R s : Nat) (hR : R ≤ 32) (hs : s < 2 ^ R) :
    reverseBits 32 s >>> (32 - R) = reverseBits R s := by
  have h := reverseBits_shift (32 - R) R s hs
  have h32 : R + (32 - R) = 32 := by omega
  rw [h32] at h
  rw [h, Nat.shiftRight_eq_div_pow]
  exact Nat.mul_div_cancel _ (Nat.pos_pow_of_pos _ (by norm_num))

theorem reverseBits_inj (R : Nat) : ∀ a b, a < 2 ^ R → b < 2 ^ R →
    reverseBits R a = reverseBits R b → a = b := by
  induction R with
  | zero =>
    intro a b ha hb _
    have : (2:Nat) ^ 0 = 1 := rfl
    omega
  | succ R ih =>
    intro a b ha hb h
    rw [reverseBits, reverseBits] at h
    have hA := reverseBits_lt R (a / 2)
    have hB := reverseBits_lt R (b / 2)
    have hp : (2:Nat) ^ (R + 1) = 2 ^ R * 2 := by rw [pow_succ]
    have heq : a % 2 = b % 2 ∧
        reverseBits R (a / 2) = reverseBits R (b / 2) := by
      rcases Nat.mod_two_eq_zero_or_one a with h1 | h1 <;>
        rcases Nat.mod_two_eq_zero_or_one b with h2 | h2 <;>
        rw [h1, h2] at h <;> simp at h <;>
        exact ⟨by omega, by omega⟩
    have hd : a / 2 = b / 2 :=
      ih (a / 2) (b / 2) (by omega) (by omega) heq.2
    omega

/-- Total count carried by a `(index, count)` list. -/
def totSum (syms : List (Nat × Nat)) : Nat := (syms.map Prod.snd).sum

theorem totSum_spreadSyms (F : List Nat) : ∀ n : Nat,
    totSum (spreadSyms n F) = F.sum := by
  induction F with
  | nil => intro n; rw [spreadSyms]; rfl
  | cons c t ih =>
    intro n
    rw [spreadSyms]
    by_cases hc : 0 < c
    · rw [if_pos hc]
      unfold totSum at ih ⊢
      simp only [List.map_cons, List.sum_cons, List.sum_nil]
      rw [ih (n + 1)]
    · rw [if_neg hc]
      have hc0 : c = 0 := by omega
      subst hc0
      have iht := ih (n + 1)
      unfold totSum at iht ⊢
      rw [iht, List.sum_cons, Nat.zero_add]

theorem replicate_getD_zero (n i : Nat) :
    (List.replicate n (0:Nat)).getD i 0 = 0 := by
  by_cases h : i < n
  · rw [List.getD_eq_getElem _ 0 (by simpa using h)]
    simp
  · rw [List.getD_eq_default _ 0 (by simpa using Nat.le_of_not_lt h)]

theorem nzSum_le_totSum : ∀ syms : List (Nat × Nat),
    nzSum syms ≤ totSum syms := by
  intro syms
  induction syms with
  | nil =>
    unfold nzSum totSum
    simp
  | cons hd rest ih =>
    obtain ⟨i, c⟩ := hd
    rw [nzSum_cons]
    have ht : totSum ((i, c) :: rest) = c + totSum rest := by
      unfold totSum
      simp
    rw [ht]
    by_cases h : i = 0
    · rw [if_pos h]
      omega
    · rw [if_neg h]
      omega

theorem brPlace_spec (R i : Nat) (hi : i < 256) (hiz : i ≠ 0)
    (hR : R ≤ 32) : ∀ (k : Nat) (ret : List Nat) (s : Nat),
    ret.length = 2 ^ R →
    s + k ≤ 2 ^ R →
    (∀ j, s ≤ j → j < 2 ^ R → ret.getD (reverseBits R j) 0 = 0) →
    (brPlace R i k (ret, s)).1.length = ret.length
    ∧ (brPlace R i k (ret, s)).1.count i = ret.count i + k
    ∧ (brPlace R i k (ret, s)).1.count 0 = ret.count 0 - k
    ∧ (∀ v, v ≠ i → v ≠ 0 →
        (brPlace R i k (ret, s)).1.count v = ret.count v)
    ∧ (∀ j, s + k ≤ j → j < 2 ^ R →
        (brPlace R i k (ret, s)).1.getD (reverseBits R j) 0 = 0)
    ∧ (brPlace R i k (ret, s)).2 = s + k := by
  intro k
  induction k with
  | zero =>
    intro ret s hlen hsk hfree
    refine ⟨rfl, by show ret.count i = ret.count i + 0; omega,
      by show ret.count 0 = ret.count 0 - 0; omega,
      fun v _ _ => rfl, fun j hj hj2 => hfree j (by omega) hj2,
      by show s = s + 0; omega⟩
  | succ k ih =>
    intro ret s hlen hsk hfree
    have hs : s < 2 ^ R := by omega
    rw [brPlace]
    have hpos : reverseBits 32 s >>> (32 - R) = reverseBits R s :=
      reverseBits32_shift R s hR hs
    rw [hpos]
    have hmod : i % 256 = i := Nat.mod_eq_of_lt hi
    rw [hmod]
    have hplt : reverseBits R s < ret.length := by
      rw [hlen]
      exact reverseBits_lt R s
    have hpz : ret.getD (reverseBits R s) 0 = 0 :=
      hfree s (le_refl s) hs
    have hcounts := count_set_zero_slot ret (reverseBits R s) i hplt hpz
    have hc0 : (ret.set (reverseBits R s) i).count 0 = ret.count 0 - 1 := by
      rw [hcounts 0]
      simp [hiz]
    have hci : (ret.set (reverseBits R s) i).count i = ret.count i + 1 := by
      rw [hcounts i]
      simp [hiz]
    have hcv : ∀ v, v ≠ i → v ≠ 0 →
        (ret.set (reverseBits R s) i).count v = ret.count v := by
      intro v hvi hv0
      rw [hcounts v]
      have h2 : ¬ i = v := fun h' => hvi h'.symm
      simp [hv0, h2]
    have hfree' : ∀ j, s + 1 ≤ j → j < 2 ^ R →
        (ret.set (reverseBits R s) i).getD (reverseBits R j) 0 = 0 := by
      intro j hj hj2
      have hne : reverseBits R s ≠ reverseBits R j := by
        intro he
        have := reverseBits_inj R s j hs hj2 he
        omega
      rw [getD_set_ne ret _ _ i hne]
      exact hfree j (by omega) hj2
    obtain ⟨r1, r2, r3, r4, r5, r6⟩ := ih (ret.set (reverseBits R s) i)
      (s + 1) (by rw [List.length_set]; exact hlen) (by omega) hfree'
    refine ⟨by rw [r1, List.length_set], ?_, ?_, ?_, ?_, ?_⟩
    · rw [r2, hci]; omega
    · rw [r3, hc0]; omega
    · intro v hvi hv0
      rw [r4 v hvi hv0, hcv v hvi hv0]
    · intro j hj hj2
      exact r5 j (by omega) hj2
    · rw [r6]; omega

theorem brPlace_zero (R : Nat) (hR : R ≤ 32) : ∀ (k : Nat)
    (ret : List Nat) (s : Nat),
    ret.length = 2 ^ R →
    s + k ≤ 2 ^ R →
    (∀ j, s ≤ j → j < 2 ^ R → ret.getD (reverseBits R j) 0 = 0) →
    (brPlace R 0 k (ret, s)).1 = ret
    ∧ (brPlace R 0 k (ret, s)).2 = s + k := by
  intro k
  induction k with
  | zero =>
    intro ret s _ _ _
    exact ⟨rfl, by show s = s + 0; omega⟩
  | succ k ih =>
    intro ret s hlen hsk hfree
    have hs : s < 2 ^ R := by omega
    rw [brPlace]
    have hpos : reverseBits 32 s >>> (32 - R) = reverseBits R s :=
      reverseBits32_shift R s hR hs
    rw [hpos]
    have hpz : ret.getD (reverseBits R s) 0 = 0 := hfree s (le_refl s) hs
    have hset : ret.set (reverseBits R s) (0 % 256) = ret := by
      show ret.set (reverseBits R s) 0 = ret
      exact set_zero_of_getD ret _ hpz
    rw [hset]
    obtain ⟨h1, h2⟩ := ih ret (s + 1) hlen (by omega)
      (fun j hj hj2 => hfree j (by omega) hj2)
    exact ⟨h1, by rw [h2]; omega⟩

theorem brLoop_spec (R : Nat) (hR : R ≤ 32) : ∀ (syms : List (Nat × Nat))
    (ret : List Nat) (s : Nat),
    (∀ p ∈ syms, p.1 < 256) →
    ret.length = 2 ^ R →
    s + totSum syms ≤ 2 ^ R →
    (∀ j, s ≤ j → j < 2 ^ R → ret.getD (reverseBits R j) 0 = 0) →
    (brLoop R syms (ret, s)).1.length = ret.length
    ∧ (∀ v, v ≠ 0 → (brLoop R syms (ret, s)).1.count v
        = ret.count v + symContrib syms v)
    ∧ (brLoop R syms (ret, s)).1.count 0 = ret.count 0 - nzSum syms := by
  intro syms
  induction syms with
  | nil =>
    intro ret s _ _ _ _
    rw [brLoop]
    refine ⟨rfl, fun v _ => ?_, ?_⟩
    · unfold symContrib
      simp
    · unfold nzSum
      simp
  | cons hd rest ih =>
    obtain ⟨i, c⟩ := hd
    intro ret s h256 hlen htot hfree
    rw [brLoop]
    have htotc : totSum ((i, c) :: rest) = c + totSum rest := by
      unfold totSum
      simp
    by_cases hi0 : i = 0
    · subst hi0
      obtain ⟨hT, hS⟩ := brPlace_zero R hR c ret s hlen
        (by omega) hfree
      have hpair : brPlace R 0 c (ret, s)
          = (ret, (brPlace R 0 c (ret, s)).2) := Prod.ext hT rfl
      rw [hpair, hS]
      obtain ⟨r1, r2, r3⟩ := ih ret (s + c)
        (fun p hp => h256 p (List.mem_cons_of_mem _ hp)) hlen
        (by omega)
        (fun j hj hj2 => hfree j (by omega) hj2)
      refine ⟨r1, ?_, ?_⟩
      · intro v hv
        rw [r2 v hv, symContrib_cons]
        have h0v : ¬ (0:Nat) = v := fun h' => hv h'.symm
        rw [if_neg h0v]
        omega
      · rw [r3, nzSum_cons]
        simp
    · obtain ⟨hlen', hci, hc0, hcv, hfree', hS⟩ :=
        brPlace_spec R i (h256 (i, c) (List.mem_cons_self _ _)) hi0 hR
          c ret s hlen (by omega) hfree
      have hpair : brPlace R i c (ret, s)
          = ((brPlace R i c (ret, s)).1, (brPlace R i c (ret, s)).2) := rfl
      rw [hpair, hS]
      obtain ⟨r1, r2, r3⟩ := ih (brPlace R i c (ret, s)).1 (s + c)
        (fun p hp => h256 p (List.mem_cons_of_mem _ hp))
        (by rw [hlen']; exact hlen)
        (by omega)
        hfree'
      refine ⟨by rw [r1, hlen'], ?_, ?_⟩
      · intro v hv
        rw [r2 v hv, symContrib_cons]
        by_cases hiv : i = v
        · subst hiv
          rw [if_pos rfl, hci]
          omega
        · rw [if_neg hiv, hcv v (fun h' => hiv h'.symm) hv]
          omega
      · rw [r3, hc0, nzSum_cons, if_neg hi0]
        have hnzle : nzSum rest ≤ totSum rest := nzSum_le_totSum rest
        omega

theorem brSpread_count (F : List Nat) (R : Nat) (hR : R ≤ 32)
    (hsum : F.sum = 2 ^ R) (hlen : F.length ≤ 256) :
    (bit_reverse_spread F R).length = 2 ^ R
    ∧ ∀ s, (bit_reverse_spread F R).count s = F.getD s 0 := by
  unfold bit_reverse_spread
  rw [Nat.one_shiftLeft]
  have hlenr : (List.replicate (2 ^ R) (0:Nat)).length = 2 ^ R := by simp
  have hc0 : (List.replicate (2 ^ R) (0:Nat)).count 0 = 2 ^ R := by
    simp [List.count_replicate]
  have hcv : ∀ v : Nat, v ≠ 0 →
      (List.replicate (2 ^ R) (0:Nat)).count v = 0 := by
    intro v hv
    have h2 : ¬ (0:Nat) = v := fun h' => hv h'.symm
    simp [List.count_replicate, h2]
  have hnzk := nzSum_spreadSyms F 0
  rw [if_pos rfl] at hnzk
  obtain ⟨r1, r2, r3⟩ := brLoop_spec R hR (spreadSyms 0 F)
    (List.replicate (2 ^ R) 0) 0
    (fun p hp => by
      have := (spreadSyms_mem F 0 p hp).2.1
      omega)
    hlenr
    (by rw [totSum_spreadSyms F 0]; omega)
    (fun j _ _ => replicate_getD_zero _ _)
  refine ⟨by rw [r1, hlenr], fun s => ?_⟩
  by_cases hs : s = 0
  · subst hs
    rw [r3, hc0]
    omega
  · rw [r2 s hs, hcv s hs, symContrib_spreadSyms F 0 s,
      if_pos (Nat.zero_le s)]
    simp

/-- C5: for every normalized frequency table (`sum F = 2^R`) each of
`fse_spread`, `fast_spread_2` and `bit_reverse_spread` returns a table of
length `2^R` in which, for every symbol `s`, the number of positions
holding `s` equals `F[s]`.  (`3 ≤ table_log ≤ 32` is the range in which
the Rust shift arithmetic is panic-free.) -/
theorem spread_multiset (F : List Nat) (table_log : Nat)
    (_hR3 : 3 ≤ table_log) (hR32 : table_log ≤ 32)
    (hsum : F.sum = 2 ^ table_log) (hlen : F.length ≤ 256) :
    ((fse_spread F table_log).length = 2 ^ table_log
      ∧ ∀ s, (fse_spread F table_log).count s = F.getD s 0)
    ∧ ((fast_spread_2 F table_log).length = 2 ^ table_log
      ∧ ∀ s, (fast_spread_2 F table_log).count s = F.getD s 0)
    ∧ ((bit_reverse_spread F table_log).length = 2 ^ table_log
      ∧ ∀ s, (bit_reverse_spread F table_log).count s = F.getD s 0) := by
  have hL : 0 < 2 ^ table_log := Nat.pos_pow_of_pos _ (by norm_num)
  refine ⟨?_, ?_, brSpread_count F table_log hR32 hsum hlen⟩
  · unfold fse_spread
    simp only [Nat.one_shiftLeft]
    exact stepSpread_count _ F (2 ^ table_log) hsum hL hlen
  · unfold fast_spread_2
    simp only [Nat.one_shiftLeft]
    exact stepSpread_count _ F (2 ^ table_log) hsum hL hlen

/-- Witness for C5 at `F = [0, 16, 16]`, `table_log = 5`. -/
theorem spread_multiset_witness :
    ((3:Nat) ≤ 5 ∧ (5:Nat) ≤ 32 ∧ ([0, 16, 16]:List Nat).sum = 2 ^ 5 ∧
      ([0, 16, 16]:List Nat).length ≤ 256) ∧
    (((fse_spread [0, 16, 16] 5).length = 2 ^ 5
      ∧ ∀ s, (fse_spread [0, 16, 16] 5).count s
          = ([0, 16, 16]:List Nat).getD s 0)
    ∧ ((fast_spread_2 [0, 16, 16] 5).length = 2 ^ 5
      ∧ ∀ s, (fast_spread_2 [0, 16, 16] 5).count s
          = ([0, 16, 16]:List Nat).getD s 0)
    ∧ ((bit_reverse_spread [0, 16, 16] 5).length = 2 ^ 5
      ∧ ∀ s, (bit_reverse_spread [0, 16, 16] 5).count s
          = ([0, 16, 16]:List Nat).getD s 0)) :=
  ⟨⟨by decide, by decide, by decide, by decide⟩,
    spread_multiset [0, 16, 16] 5 (by decide) (by decide) (by decide)
      (by decide)⟩

/-! ## Normalization (`src/normalization.rs`)

Results are `Option (Except NormError (List Nat))`: `none` models a panic
(division by zero when `sum(hist) = 0`, a failed `assert!`, a
`pop().unwrap()` on an empty heap, or a diverging loop), `some (.error e)`
a returned `Err`, and `some (.ok F)` a normalized table.
`HIGH_NUM = usize::BITS - 2 = 62` on the 64-bit target. -/

inductive NormError where
  | RunLengthEncoding
  | MultiplicationOverflow
  | NormalizationError
  deriving DecidableEq, Repr

/-- First pass of `fast_normalization_1` (normalization.rs:44-74): for
each count `s`, return the `RunLengthEncoding` error when `s == len`
(`len` is `hist.len()`), else emit `proba = (s * step) >> scale` (checked
multiplication: `MultiplicationOverflow` above `2^64`), tracking the
position and value of the strict maximum and the remaining budget
`still_to_distribute` (an `isize`, modelled as `Int`). -/
def fn1Loop (len stepv scale : Nat) :
    List Nat → Nat → Option Nat → Nat → Int →
    Except NormError (List Nat × Option Nat × Nat × Int)
  | [], _, maxIdx, maxv, still => .ok ([], maxIdx, maxv, still)
  | s :: t, idx, maxIdx, maxv, still =>
    if s = len then .error .RunLengthEncoding
    else if 0 < s then
      if 2 ^ 64 ≤ s * stepv then .error .MultiplicationOverflow
      else
        let proba := (s * stepv) >>> scale
        match fn1Loop len stepv scale t (idx + 1)
            (if maxv < proba then some idx else maxIdx)
            (if maxv < proba then proba else maxv)
            (still - (proba : Int)) with
        | .ok (norm, a, b, c) => .ok (proba :: norm, a, b, c)
        | .error e => .error e
    else
      match fn1Loop len stepv scale t (idx + 1) maxIdx maxv still with
      | .ok (norm, a, b, c) => .ok (0 :: norm, a, b, c)
      | .error e => .error e

/-- `fast_normalization_1` (normalization.rs:25).  The final
`*max_norm += still_to_distribute as usize` is release-mode wrapping
arithmetic whose value is `max + still` (exact, since the
`NormalizationError` guard bounds the deficit); when no entry ever
exceeded `max = 0` the write lands on the dummy `&mut 0` temporary and
the table is returned unchanged. -/
def fast_normalization_1 (hist : List Nat) (table_log : Nat) :
    Option (Except NormError (List Nat)) :=
  if hist.sum = 0 then none
  else
    let scale := 62 - table_log
    let stepv := 2 ^ 62 / hist.sum
    match fn1Loop hist.length stepv scale hist 0 none 0
        ((2 : Int) ^ table_log) with
    | .error e => some (.error e)
    | .ok (norm, maxIdx, maxv, still) =>
      if ((maxv / 2 : Nat) : Int) ≤ -still then
        some (.error .NormalizationError)
      else
        match maxIdx with
        | none => some (.ok norm)
        | some mi =>
          some (.ok (norm.set mi
            (((norm.getD mi 0 : Int) + still).toNat)))

/-- First pass of `normalization_with_fast_compensation`
(normalization.rs:97-116): same as `fn1Loop` but with the floor-to-1
(`max(1, ...)`) and a `usize` running total. -/
def fcLoop (len stepv scale : Nat) :
    List Nat → Nat → Option Nat → Nat → Nat →
    Except NormError (List Nat × Option Nat × Nat × Nat)
  | [], _, maxIdx, maxv, total => .ok ([], maxIdx, maxv, total)
  | s :: t, idx, maxIdx, maxv, total =>
    if s = len then .error .RunLengthEncoding
    else if 0 < s then
      if 2 ^ 64 ≤ s * stepv then .error .MultiplicationOverflow
      else
        let proba := max 1 ((s * stepv) >>> scale)
        match fcLoop len stepv scale t (idx + 1)
            (if maxv < proba then some idx else maxIdx)
            (if maxv < proba then proba else maxv)
            (total + proba) with
        | .ok (norm, a, b, c) => .ok (proba :: norm, a, b, c)
        | .error e => .error e
    else
      match fcLoop len stepv scale t (idx + 1) maxIdx maxv total with
      | .ok (norm, a, b, c) => .ok (0 :: norm, a, b, c)
      | .error e => .error e

/-- One reverse sweep of the compensation loop
(normalization.rs:124-132), operating on the reversed table: skip
entries of 1, decrement larger entries until `total == table_size`. -/
def fcPassRev (table_size : Nat) : List Nat → Nat → List Nat × Nat
  | [], total => ([], total)
  | n :: t, total =>
    if total = table_size then (n :: t, total)
    else if 1 < n then
      ((n - 1) :: (fcPassRev table_size t (total - 1)).1,
        (fcPassRev table_size t (total - 1)).2)
    else
      (n :: (fcPassRev table_size t total).1,
        (fcPassRev table_size t total).2)

/-- The `while total > table_size` loop (normalization.rs:123), embedded
with fuel; when no entry exceeds 1 the Rust loop diverges, modelled as
`none` on fuel exhaustion. -/
def fcWhile (table_size : Nat) : Nat → List Nat → Nat →
    Option (List Nat × Nat)
  | 0, norm, total => if total ≤ table_size then some (norm, total) else none
  | fuel + 1, norm, total =>
    if total ≤ table_size then some (norm, total)
    else
      fcWhile table_size fuel
        ((fcPassRev table_size norm.reverse total).1.reverse)
        (fcPassRev table_size norm.reverse total).2

/-- `normalization_with_fast_compensation` (normalization.rs:83).  The
trailing `assert_eq!`s are modelled as guards returning `none` (panic)
when violated; the `#[cfg(test)]` block is test-only and omitted. -/
def normalization_with_fast_compensation (hist : List Nat)
    (table_log : Nat) : Option (Except NormError (List Nat)) :=
  if hist.sum = 0 then none
  else
    let scale := 62 - table_log
    let stepv := 2 ^ 62 / hist.sum
    match fcLoop hist.length stepv scale hist 0 none 0 0 with
    | .error e => some (.error e)
    | .ok (norm, maxIdx, _, total) =>
      let table_size := 2 ^ table_log
      if total < table_size then
        match maxIdx with
        | some mi =>
          let fixed := norm.set mi (norm.getD mi 0 + (table_size - total))
          if fixed.sum = table_size then some (.ok fixed) else none
        | none =>
          if norm.sum = table_size then some (.ok norm) else none
      else
        match fcWhile table_size (total + 1) norm total with
        | none => none
        | some (fixed, total') =>
          if total' = table_size ∧ fixed.sum = table_size then
            some (.ok fixed)
          else none

/-- First pass of `normalization_with_compensation_binary_heap`
(normalization.rs:167-177), over `histogram.take(max_symbol + 1)`. -/
def bhLoop (len stepv scale : Nat) :
    List Nat → Nat → Except NormError (List Nat × Nat)
  | [], total => .ok ([], total)
  | c :: t, total =>
    if c = len then .error .RunLengthEncoding
    else if 0 < c then
      if 2 ^ 64 ≤ c * stepv then .error .MultiplicationOverflow
      else
        let proba := max ((c * stepv) >>> scale) 1
        match bhLoop len stepv scale t (total + proba) with
        | .ok (norm, tot) => .ok (proba :: norm, tot)
        | .error e => .error e
    else
      match bhLoop len stepv scale t total with
      | .ok (norm, tot) => .ok (0 :: norm, tot)
      | .error e => .error e

/-- The compensation loop of the binary-heap normalization
(normalization.rs:228-247), with the heap's `f32`-keyed pop order
abstracted into a selection strategy `sel` (the postconditions hold for
every pop order, in particular the real one): pop an index, move
`normalized[index]` and `total` one step toward `table_size`, and re-push
the index when `normalized[index] > 1 || table_size > total`.  Fuel
bounds the iteration count (`|total - table_size|` steps are taken);
`sel = none` on a nonempty heap never occurs for an honest strategy, and
on an empty heap models the `pop().unwrap()` panic. -/
def heapLoop (sel : List Nat → Option (Nat × List Nat))
    (table_size : Nat) : Nat → List Nat → List Nat → Nat →
    Option (List Nat × Nat)
  | 0, _, normalized, total =>
    if total = table_size then some (normalized, total) else none
  | fuel + 1, heap, normalized, total =>
    if total = table_size then some (normalized, total)
    else
      match sel heap with
      | none => none
      | some (idx, heap') =>
        if table_size > total then
          heapLoop sel table_size fuel
            (if 1 < (normalized.set idx (normalized.getD idx 0 + 1)).getD idx 0
                ∨ table_size > total + 1
              then idx :: heap' else heap')
            (normalized.set idx (normalized.getD idx 0 + 1)) (total + 1)
        else
          heapLoop sel table_size fuel
            (if 1 < (normalized.set idx (normalized.getD idx 0 - 1)).getD idx 0
                ∨ table_size > total - 1
              then idx :: heap' else heap')
            (normalized.set idx (normalized.getD idx 0 - 1)) (total - 1)

/-- `vec![0usize; max_symbol + 1]` with its first entries overwritten by
the first pass: the pass only reaches `min(max_symbol + 1, len)` slots,
the rest keep their initial 0. -/
def bhPad (norm0 : List Nat) (max_symbol : Nat) : List Nat :=
  norm0 ++ List.replicate (max_symbol + 1 - norm0.length) 0

/-- Indices pushed on the heap (normalization.rs:214-216): the members of
`(0..max_symbol)` with a nonzero count and either a shrinkable normalized
entry or an increment-mode loop. -/
def bhHeapInit (histogram normalized : List Nat)
    (table_size total max_symbol : Nat) : List Nat :=
  (List.range max_symbol).filter
    (fun i => decide (histogram.getD i 0 ≠ 0 ∧
      (1 < normalized.getD i 0 ∨ table_size > total)))

/-- `normalization_with_compensation_binary_heap`
(normalization.rs:150), parametric in the heap's pop strategy `sel`.
When the compensation loop is reached with `max_symbol >
histogram.len()`, the heap-building filter indexes `histogram[i]` out of
bounds and panics (`none`).  The initial heap holds the indices of
`(0..max_symbol)` passing the filter, in range order; `sel` abstracts
which element each `pop` returns. -/
def normalization_with_compensation_binary_heap
    (sel : List Nat → Option (Nat × List Nat))
    (histogram : List Nat) (table_log max_symbol : Nat) :
    Option (Except NormError (List Nat)) :=
  if histogram.sum = 0 then none
  else
    let scale := 62 - table_log
    let stepv := 2 ^ 62 / histogram.sum
    match bhLoop histogram.length stepv scale
        (histogram.take (max_symbol + 1)) 0 with
    | .error e => some (.error e)
    | .ok (norm0, total) =>
      let table_size := 2 ^ table_log
      if total = table_size then
        if (bhPad norm0 max_symbol).sum = table_size then
          some (.ok (bhPad norm0 max_symbol))
        else none
      else if histogram.length < max_symbol then none
      else
        match heapLoop sel table_size (total + table_size)
            (bhHeapInit histogram (bhPad norm0 max_symbol) table_size
              total max_symbol)
            (bhPad norm0 max_symbol) total with
        | none => none
        | some (fixed, total') =>
          if total' = table_size ∧ fixed.sum = table_size then
            some (.ok fixed)
          else none

theorem getD_set_self (l : List Nat) (p v : Nat) (hp : p < l.length) :
    (l.set p v).getD p 0 = v := by
  rw [List.getD_eq_getElem _ 0 (by simpa using hp)]
  exact List.getElem_set_self _

theorem getD_set_mono (l : List Nat) (p v : Nat) (hv : l.getD p 0 ≤ v)
    (j : Nat) : l.getD j 0 ≤ (l.set p v).getD j 0 := by
  by_cases hj : p = j
  · subst hj
    by_cases hp : p < l.length
    · rw [getD_set_self l p v hp]; exact hv
    · rw [List.set_eq_of_length_le (by omega)]
  · rw [getD_set_ne l p j v hj]

theorem getD_pos_lt (l : List Nat) (i : Nat) (h : 0 < l.getD i 0) :
    i < l.length := by
  by_contra hc
  rw [List.getD_eq_default _ _ (by omega)] at h
  omega

theorem getD_reverse (l : List Nat) (j : Nat) (hj : j < l.length) :
    l.reverse.getD j 0 = l.getD (l.length - 1 - j) 0 := by
  rw [List.getD_eq_getElem _ 0 (by simpa using hj),
      List.getD_eq_getElem _ 0 (by simpa using (by omega : l.length - 1 - j < l.length))]
  exact List.getElem_reverse _

/-- The first pass of `normalization_with_fast_compensation` floors every
nonzero count's share to at least 1. -/
theorem fcLoop_ge (len stepv scale : Nat) (l : List Nat) : ∀ (idx : Nat)
    (mi0 : Option Nat) (mv0 tot0 : Nat) (norm : List Nat)
    (mi : Option Nat) (mv tot : Nat),
    fcLoop len stepv scale l idx mi0 mv0 tot0 = .ok (norm, mi, mv, tot) →
    ∀ j, 0 < l.getD j 0 → 1 ≤ norm.getD j 0 := by
  induction l with
  | nil =>
    intro idx mi0 mv0 tot0 norm mi mv tot h j hj
    simp only [fcLoop, Except.ok.injEq, Prod.mk.injEq] at h
    obtain ⟨h1, -⟩ := h
    subst h1
    simp at hj
  | cons s t ih =>
    intro idx mi0 mv0 tot0 norm mi mv tot h j hj
    by_cases hs : s = len
    · simp only [fcLoop, if_pos hs] at h
      exact Except.noConfusion h
    · by_cases hpos : 0 < s
      · by_cases hov : 2 ^ 64 ≤ s * stepv
        · simp only [fcLoop, if_neg hs, if_pos hpos, if_pos hov] at h
          exact Except.noConfusion h
        · simp only [fcLoop, if_neg hs, if_pos hpos, if_neg hov] at h
          generalize (if mv0 < max 1 ((s * stepv) >>> scale) then some idx
            else mi0) = A at h
          generalize (if mv0 < max 1 ((s * stepv) >>> scale) then
            max 1 ((s * stepv) >>> scale) else mv0) = B at h
          cases hrec : fcLoop len stepv scale t (idx + 1) A B
              (tot0 + max 1 ((s * stepv) >>> scale)) with
          | error e => rw [hrec] at h; simp at h
          | ok q =>
            obtain ⟨normt, mit, mvt, tott⟩ := q
            rw [hrec] at h
            simp only [Except.ok.injEq, Prod.mk.injEq] at h
            obtain ⟨h1, -⟩ := h
            subst h1
            cases j with
            | zero =>
              simp only [List.getD_cons_zero]
              exact Nat.le_max_left _ _
            | succ j =>
              simp only [List.getD_cons_succ] at hj ⊢
              exact ih _ _ _ _ _ _ _ _ hrec j hj
      · simp only [fcLoop, if_neg hs, if_neg hpos] at h
        cases hrec : fcLoop len stepv scale t (idx + 1) mi0 mv0 tot0 with
        | error e => rw [hrec] at h; simp at h
        | ok q =>
          obtain ⟨normt, mit, mvt, tott⟩ := q
          rw [hrec] at h
          simp only [Except.ok.injEq, Prod.mk.injEq] at h
          obtain ⟨h1, -⟩ := h
          subst h1
          cases j with
          | zero => simp only [List.getD_cons_zero] at hj; omega
          | succ j =>
            simp only [List.getD_cons_succ] at hj ⊢
            exact ih _ _ _ _ _ _ _ _ hrec j hj

/-- One reverse compensation sweep keeps the table's length and never
drives a positive entry below 1 (entries of 1 are skipped). -/
theorem fcPassRev_ge (ts : Nat) (l : List Nat) : ∀ tot : Nat,
    (fcPassRev ts l tot).1.length = l.length ∧
    ∀ j, 1 ≤ l.getD j 0 → 1 ≤ (fcPassRev ts l tot).1.getD j 0 := by
  induction l with
  | nil =>
    intro tot
    exact ⟨rfl, fun j hj => hj⟩
  | cons n t ih =>
    intro tot
    by_cases htot : tot = ts
    · constructor
      · simp [fcPassRev, htot]
      · intro j hj
        simpa [fcPassRev, htot] using hj
    · by_cases hn : 1 < n
      · constructor
        · simp [fcPassRev, htot, hn, (ih (tot - 1)).1]
        · intro j hj
          cases j with
          | zero =>
            simp only [fcPassRev, if_neg htot, if_pos hn,
              List.getD_cons_zero]
            omega
          | succ j =>
            simp only [fcPassRev, if_neg htot, if_pos hn,
              List.getD_cons_succ] at hj ⊢
            exact (ih (tot - 1)).2 j hj
      · constructor
        · simp [fcPassRev, htot, hn, (ih tot).1]
        · intro j hj
          cases j with
          | zero =>
            simp only [fcPassRev, if_neg htot, if_neg hn,
              List.getD_cons_zero] at hj ⊢
            exact hj
          | succ j =>
            simp only [fcPassRev, if_neg htot, if_neg hn,
              List.getD_cons_succ] at hj ⊢
            exact (ih tot).2 j hj

/-- The `while total > table_size` compensation loop never drives a
positive entry below 1. -/
theorem fcWhile_ge (ts : Nat) : ∀ (fuel : Nat) (norm : List Nat)
    (tot : Nat) (norm' : List Nat) (tot' : Nat),
    fcWhile ts fuel norm tot = some (norm', tot') →
    ∀ j, 1 ≤ norm.getD j 0 → 1 ≤ norm'.getD j 0 := by
  intro fuel
  induction fuel with
  | zero =>
    intro norm tot norm' tot' h j hj
    by_cases hle : tot ≤ ts
    · simp only [fcWhile, if_pos hle, Option.some.injEq,
        Prod.mk.injEq] at h
      obtain ⟨h1, -⟩ := h
      subst h1
      exact hj
    · simp only [fcWhile, if_neg hle] at h
      exact Option.noConfusion h
  | succ fuel ih =>
    intro norm tot norm' tot' h j hj
    by_cases hle : tot ≤ ts
    · simp only [fcWhile, if_pos hle, Option.some.injEq,
        Prod.mk.injEq] at h
      obtain ⟨h1, -⟩ := h
      subst h1
      exact hj
    · simp only [fcWhile, if_neg hle] at h
      refine ih _ _ _ _ h j ?_
      by_cases hjl : j < norm.length
      · have hlenr : norm.reverse.length = norm.length :=
          List.length_reverse _
        have hP := fcPassRev_ge ts norm.reverse tot
        have hlenP : (fcPassRev ts norm.reverse tot).1.length
            = norm.length := by rw [hP.1, hlenr]
        rw [getD_reverse _ j (by rw [hlenP]; exact hjl), hlenP]
        refine hP.2 _ ?_
        rw [getD_reverse _ _ (by omega)]
        have hidx : norm.length - 1 - (norm.length - 1 - j) = j := by
          omega
        rw [hidx]
        exact hj
      · rw [List.getD_eq_default _ _ (by omega)] at hj
        omega

/-- The first pass of the binary-heap normalization keeps the table
length and floors every nonzero count's share to at least 1. -/
theorem bhLoop_ge (len stepv scale : Nat) (l : List Nat) : ∀ (tot0 : Nat)
    (norm : List Nat) (tot : Nat),
    bhLoop len stepv scale l tot0 = .ok (norm, tot) →
    norm.length = l.length ∧
    ∀ j, 0 < l.getD j 0 → 1 ≤ norm.getD j 0 := by
  induction l with
  | nil =>
    intro tot0 norm tot h
    simp only [bhLoop, Except.ok.injEq, Prod.mk.injEq] at h
    obtain ⟨h1, -⟩ := h
    subst h1
    exact ⟨rfl, fun j hj => by simp at hj⟩
  | cons c t ih =>
    intro tot0 norm tot h
    by_cases hs : c = len
    · simp only [bhLoop, if_pos hs] at h
      exact Except.noConfusion h
    · by_cases hpos : 0 < c
      · by_cases hov : 2 ^ 64 ≤ c * stepv
        · simp only [bhLoop, if_neg hs, if_pos hpos, if_pos hov] at h
          exact Except.noConfusion h
        · simp only [bhLoop, if_neg hs, if_pos hpos, if_neg hov] at h
          cases hrec : bhLoop len stepv scale t
              (tot0 + max ((c * stepv) >>> scale) 1) with
          | error e => rw [hrec] at h; simp at h
          | ok q =>
            obtain ⟨normt, tott⟩ := q
            rw [hrec] at h
            simp only [Except.ok.injEq, Prod.mk.injEq] at h
            obtain ⟨h1, -⟩ := h
            subst h1
            obtain ⟨ihl, ihg⟩ := ih _ _ _ hrec
            refine ⟨by simp [ihl], ?_⟩
            intro j hj
            cases j with
            | zero =>
              simp only [List.getD_cons_zero]
              exact Nat.le_max_right _ _
            | succ j =>
              simp only [List.getD_cons_succ] at hj ⊢
              exact ihg j hj
      · simp only [bhLoop, if_neg hs, if_neg hpos] at h
        cases hrec : bhLoop len stepv scale t tot0 with
        | error e => rw [hrec] at h; simp at h
        | ok q =>
          obtain ⟨normt, tott⟩ := q
          rw [hrec] at h
          simp only [Except.ok.injEq, Prod.mk.injEq] at h
          obtain ⟨h1, -⟩ := h
          subst h1
          obtain ⟨ihl, ihg⟩ := ih _ _ _ hrec
          refine ⟨by simp [ihl], ?_⟩
          intro j hj
          cases j with
          | zero => simp only [List.getD_cons_zero] at hj; omega
          | succ j =>
            simp only [List.getD_cons_succ] at hj ⊢
            exact ihg j hj

/-- Pop strategy that always pops the head of the heap list; one honest
instance of the abstracted `BinaryHeap::pop`. -/
def headSel : List Nat → Option (Nat × List Nat)
  | [] => none
  | x :: t => some (x, t)

/-- In increment mode (`total ≤ table_size`) the heap compensation loop
only raises entries, so pointwise lower bounds survive. -/
theorem heapLoop_inc_ge (sel : List Nat → Option (Nat × List Nat))
    (ts : Nat) : ∀ (fuel : Nat) (heap norm : List Nat) (tot : Nat)
    (norm' : List Nat) (tot' : Nat),
    tot ≤ ts →
    heapLoop sel ts fuel heap norm tot = some (norm', tot') →
    ∀ j, 1 ≤ norm.getD j 0 → 1 ≤ norm'.getD j 0 := by
  intro fuel
  induction fuel with
  | zero =>
    intro heap norm tot norm' tot' hle h j hj
    by_cases he : tot = ts
    · simp only [heapLoop, if_pos he, Option.some.injEq,
        Prod.mk.injEq] at h
      obtain ⟨h1, -⟩ := h
      subst h1
      exact hj
    · simp only [heapLoop, if_neg he] at h
      exact Option.noConfusion h
  | succ fuel ih =>
    intro heap norm tot norm' tot' hle h j hj
    by_cases he : tot = ts
    · simp only [heapLoop, if_pos he, Option.some.injEq,
        Prod.mk.injEq] at h
      obtain ⟨h1, -⟩ := h
      subst h1
      exact hj
    · have hlt : tot < ts := lt_of_le_of_ne hle he
      simp only [heapLoop, if_neg he] at h
      cases hselq : sel heap with
      | none =>
        simp only [hselq] at h
        exact Option.noConfusion h
      | some p =>
        obtain ⟨idx, heap'⟩ := p
        simp only [hselq] at h
        rw [if_pos (show ts > tot from hlt)] at h
        refine ih _ _ _ _ _ (by omega) h j ?_
        exact le_trans hj (getD_set_mono norm idx _ (by omega) j)

/-- In decrement mode (`table_size ≤ total`) every heap member's entry
exceeds 1 and only heap members are ever decremented, so pointwise lower
bounds of 1 survive. -/
theorem heapLoop_dec_ge (sel : List Nat → Option (Nat × List Nat))
    (ts : Nat)
    (hsel : ∀ l i l', sel l = some (i, l') → l.Perm (i :: l')) :
    ∀ (fuel : Nat) (heap norm : List Nat) (tot : Nat)
    (norm' : List Nat) (tot' : Nat),
    ts ≤ tot →
    heap.Nodup →
    (∀ i ∈ heap, 1 < norm.getD i 0) →
    heapLoop sel ts fuel heap norm tot = some (norm', tot') →
    ∀ j, 1 ≤ norm.getD j 0 → 1 ≤ norm'.getD j 0 := by
  intro fuel
  induction fuel with
  | zero =>
    intro heap norm tot norm' tot' hge hnd hinv h j hj
    by_cases he : tot = ts
    · simp only [heapLoop, if_pos he, Option.some.injEq,
        Prod.mk.injEq] at h
      obtain ⟨h1, -⟩ := h
      subst h1
      exact hj
    · simp only [heapLoop, if_neg he] at h
      exact Option.noConfusion h
  | succ fuel ih =>
    intro heap norm tot norm' tot' hge hnd hinv h j hj
    by_cases he : tot = ts
    · simp only [heapLoop, if_pos he, Option.some.injEq,
        Prod.mk.injEq] at h
      obtain ⟨h1, -⟩ := h
      subst h1
      exact hj
    · have hlt : ts < tot := lt_of_le_of_ne hge (Ne.symm he)
      simp only [heapLoop, if_neg he] at h
      cases hselq : sel heap with
      | none =>
        simp only [hselq] at h
        exact Option.noConfusion h
      | some p =>
        obtain ⟨idx, heap'⟩ := p
        simp only [hselq] at h
        rw [if_neg (show ¬ ts > tot by omega)] at h
        have hperm := hsel heap idx heap' hselq
        have hmem : idx ∈ heap := hperm.mem_iff.mpr (List.mem_cons_self _ _)
        have hval : 1 < norm.getD idx 0 := hinv idx hmem
        have hidxlen : idx < norm.length := getD_pos_lt _ _ (by omega)
        have hnd2 : idx ∉ heap' ∧ heap'.Nodup := by
          have := hperm.nodup_iff.mp hnd
          simpa using this
        have hset_self :
            (norm.set idx (norm.getD idx 0 - 1)).getD idx 0
              = norm.getD idx 0 - 1 := getD_set_self _ _ _ hidxlen
        refine ih _ _ _ _ _ (by omega) ?_ ?_ h j ?_
        · by_cases hpush :
              (1 < (norm.set idx (norm.getD idx 0 - 1)).getD idx 0
                ∨ ts > tot - 1)
          · rw [if_pos hpush]
            exact List.nodup_cons.mpr ⟨hnd2.1, hnd2.2⟩
          · rw [if_neg hpush]
            exact hnd2.2
        · by_cases hpush :
              (1 < (norm.set idx (norm.getD idx 0 - 1)).getD idx 0
                ∨ ts > tot - 1)
          · rw [if_pos hpush]
            intro i hi
            rcases List.mem_cons.mp hi with rfl | hi2
            · rcases hpush with h1 | h2
              · exact h1
              · omega
            · have hne : idx ≠ i := fun hh => hnd2.1 (hh ▸ hi2)
              rw [getD_set_ne _ _ _ _ hne]
              exact hinv i (hperm.mem_iff.mpr (List.mem_cons_of_mem _ hi2))
          · rw [if_neg hpush]
            intro i hi2
            have hne : idx ≠ i := fun hh => hnd2.1 (hh ▸ hi2)
            rw [getD_set_ne _ _ _ _ hne]
            exact hinv i (hperm.mem_iff.mpr (List.mem_cons_of_mem _ hi2))
        · by_cases hji : idx = j
          · subst hji
            rw [hset_self]
            omega
          · rw [getD_set_ne _ _ _ _ hji]
            exact hj

set_option maxRecDepth 20000 in
/-- C3 counterexample: `fast_normalization_1` has no floor-to-1 rule.
On `H = [1, 100]`, `R = 5` it succeeds with `F = [0, 32]` although
`H[0] = 1 > 0` and `F[0] = 0`; and on the flat histogram of 64 ones with
`R = 5` every share rounds down to 0, the `&mut 0` dummy max pointer
absorbs the whole budget, and it succeeds with an all-zero table whose
sum is 0, not `2^5`. -/
theorem normalization_floor_counterexample :
    (fast_normalization_1 [1, 100] 5 = some (Except.ok [0, 32]) ∧
      0 < ([1, 100] : List Nat).getD 0 0 ∧
      ([0, 32] : List Nat).getD 0 0 < 1) ∧
    (fast_normalization_1 (List.replicate 64 1) 5
        = some (Except.ok (List.replicate 64 0)) ∧
      (List.replicate 64 (0 : Nat)).sum ≠ 2 ^ 5) :=
  ⟨⟨rfl, by decide, by decide⟩, ⟨rfl, by decide⟩⟩

/-- C3 (amended): whenever `normalization_with_fast_compensation` returns
`Ok(F)`, or `normalization_with_compensation_binary_heap` (under any
honest heap pop order, with `max_symbol` at least every occurring symbol)
returns `Ok(G)`, the result sums to `2^table_log` and gives at least 1 to
every symbol with a positive count.  (`fast_normalization_1` and
`slow_normalization` have no floor-to-1 rule and guarantee neither
property, see the counterexample.) -/
theorem normalization_props
    (hist : List Nat) (table_log max_symbol : Nat)
    (sel : List Nat → Option (Nat × List Nat)) (F G : List Nat)
    (hsel : ∀ l i l', sel l = some (i, l') → l.Perm (i :: l'))
    (hms : ∀ i, 0 < hist.getD i 0 → i ≤ max_symbol) :
    (normalization_with_fast_compensation hist table_log
        = some (.ok F) →
      F.sum = 2 ^ table_log ∧
      ∀ i, 0 < hist.getD i 0 → 1 ≤ F.getD i 0) ∧
    (normalization_with_compensation_binary_heap sel hist table_log
        max_symbol = some (.ok G) →
      G.sum = 2 ^ table_log ∧
      ∀ i, 0 < hist.getD i 0 → 1 ≤ G.getD i 0) := by
  constructor
  · intro hF
    by_cases hs0 : hist.sum = 0
    · simp only [normalization_with_fast_compensation, if_pos hs0] at hF
      exact Option.noConfusion hF
    · simp only [normalization_with_fast_compensation, if_neg hs0] at hF
      cases hloop : fcLoop hist.length (2 ^ 62 / hist.sum)
          (62 - table_log) hist 0 none 0 0 with
      | error e =>
        simp only [hloop] at hF
        simp at hF
      | ok q =>
        obtain ⟨norm, maxIdx, mv, total⟩ := q
        simp only [hloop] at hF
        have hge1 := fcLoop_ge hist.length (2 ^ 62 / hist.sum)
          (62 - table_log) hist 0 none 0 0 norm maxIdx mv total hloop
        by_cases hlt : total < 2 ^ table_log
        · rw [if_pos hlt] at hF
          cases maxIdx with
          | some mi =>
            dsimp only at hF
            by_cases hg : (norm.set mi
                (norm.getD mi 0 + (2 ^ table_log - total))).sum
                  = 2 ^ table_log
            · rw [if_pos hg] at hF
              simp only [Option.some.injEq, Except.ok.injEq] at hF
              subst hF
              exact ⟨hg, fun i hi => le_trans (hge1 i hi)
                (getD_set_mono norm mi _ (Nat.le_add_right _ _) i)⟩
            · rw [if_neg hg] at hF
              exact Option.noConfusion hF
          | none =>
            dsimp only at hF
            by_cases hg : norm.sum = 2 ^ table_log
            · rw [if_pos hg] at hF
              simp only [Option.some.injEq, Except.ok.injEq] at hF
              subst hF
              exact ⟨hg, fun i hi => hge1 i hi⟩
            · rw [if_neg hg] at hF
              exact Option.noConfusion hF
        · rw [if_neg hlt] at hF
          cases hwh : fcWhile (2 ^ table_log) (total + 1) norm total with
          | none =>
            simp only [hwh] at hF
            exact Option.noConfusion hF
          | some q2 =>
            obtain ⟨fixed, total2⟩ := q2
            simp only [hwh] at hF
            by_cases hg : total2 = 2 ^ table_log ∧
                fixed.sum = 2 ^ table_log
            · rw [if_pos hg] at hF
              simp only [Option.some.injEq, Except.ok.injEq] at hF
              subst hF
              exact ⟨hg.2, fun i hi =>
                fcWhile_ge _ _ _ _ _ _ hwh i (hge1 i hi)⟩
            · rw [if_neg hg] at hF
              exact Option.noConfusion hF
  · intro hG
    by_cases hs0 : hist.sum = 0
    · simp only [normalization_with_compensation_binary_heap,
        if_pos hs0] at hG
      exact Option.noConfusion hG
    · simp only [normalization_with_compensation_binary_heap,
        if_neg hs0] at hG
      cases hbh : bhLoop hist.length (2 ^ 62 / hist.sum)
          (62 - table_log) (hist.take (max_symbol + 1)) 0 with
      | error e =>
        simp only [hbh] at hG
        simp at hG
      | ok q =>
        obtain ⟨norm0, total⟩ := q
        simp only [hbh] at hG
        obtain ⟨hlen0, hge0⟩ := bhLoop_ge hist.length (2 ^ 62 / hist.sum)
          (62 - table_log) (hist.take (max_symbol + 1)) 0 norm0 total hbh
        have hpos : ∀ i, 0 < hist.getD i 0 →
            1 ≤ (bhPad norm0 max_symbol).getD i 0 := by
          intro i hi
          have hims := hms i hi
          have hilt := getD_pos_lt hist i hi
          have hitk : i < (hist.take (max_symbol + 1)).length := by
            simp only [List.length_take]
            omega
          have htake : (hist.take (max_symbol + 1)).getD i 0
              = hist.getD i 0 := by
            rw [List.getD_eq_getElem _ 0 (by simpa using hitk),
                List.getD_eq_getElem _ 0 (by simpa using hilt)]
            exact List.getElem_take hist
          have h1 : 1 ≤ norm0.getD i 0 := hge0 i (by rw [htake]; exact hi)
          unfold bhPad
          rw [List.getD_append _ _ _ _ (by omega)]
          exact h1
        by_cases htot : total = 2 ^ table_log
        · rw [if_pos htot] at hG
          by_cases hg : (bhPad norm0 max_symbol).sum = 2 ^ table_log
          · rw [if_pos hg] at hG
            simp only [Option.some.injEq, Except.ok.injEq] at hG
            subst hG
            exact ⟨hg, hpos⟩
          · rw [if_neg hg] at hG
            exact Option.noConfusion hG
        · rw [if_neg htot] at hG
          by_cases hlml : hist.length < max_symbol
          · rw [if_pos hlml] at hG
            exact Option.noConfusion hG
          · rw [if_neg hlml] at hG
            cases hhl : heapLoop sel (2 ^ table_log)
                (total + 2 ^ table_log)
                (bhHeapInit hist (bhPad norm0 max_symbol)
                  (2 ^ table_log) total max_symbol)
                (bhPad norm0 max_symbol) total with
            | none =>
              simp only [hhl] at hG
              exact Option.noConfusion hG
            | some q2 =>
              obtain ⟨fixed, total2⟩ := q2
              simp only [hhl] at hG
              by_cases hg : total2 = 2 ^ table_log ∧
                  fixed.sum = 2 ^ table_log
              · rw [if_pos hg] at hG
                simp only [Option.some.injEq, Except.ok.injEq] at hG
                subst hG
                refine ⟨hg.2, ?_⟩
                intro i hi
                by_cases hcmp : total < 2 ^ table_log
                · exact heapLoop_inc_ge sel _ _ _ _ _ _ _
                    (le_of_lt hcmp) hhl i (hpos i hi)
                · have hdinv : ∀ k ∈ bhHeapInit hist
                      (bhPad norm0 max_symbol) (2 ^ table_log) total
                      max_symbol,
                      1 < (bhPad norm0 max_symbol).getD k 0 := by
                    intro k hk
                    unfold bhHeapInit at hk
                    simp only [List.mem_filter, decide_eq_true_eq] at hk
                    rcases hk.2.2 with h1 | h2
                    · exact h1
                    · omega
                  exact heapLoop_dec_ge sel _ hsel _ _ _ _ _ _
                    (by omega)
                    (List.Nodup.filter _ (List.nodup_range _))
                    hdinv hhl i (hpos i hi)
              · rw [if_neg hg] at hG
                exact Option.noConfusion hG

set_option maxRecDepth 20000 in
/-- Witness for C3 at `H = [2, 2, 4]`, `R = 3`, `max_symbol = 2`, pop
strategy `headSel`: both compensation normalizers return `[2, 2, 4]`,
which sums to `2^3` and floors every occurring symbol to at least 1. -/
theorem normalization_props_witness :
    (([2, 2, 4] : List Nat).sum = 2 ^ 3 ∧
      ∀ i, 0 < ([2, 2, 4] : List Nat).getD i 0 →
        1 ≤ ([2, 2, 4] : List Nat).getD i 0) ∧
    (([2, 2, 4] : List Nat).sum = 2 ^ 3 ∧
      ∀ i, 0 < ([2, 2, 4] : List Nat).getD i 0 →
        1 ≤ ([2, 2, 4] : List Nat).getD i 0) := by
  have hsel : ∀ l i l', headSel l = some (i, l') → l.Perm (i :: l') := by
    intro l i l' h
    cases l with
    | nil => exact Option.noConfusion h
    | cons x t =>
      simp only [headSel, Option.some.injEq, Prod.mk.injEq] at h
      obtain ⟨h1, h2⟩ := h
      subst h1
      subst h2
      exact List.Perm.refl _
  have hms : ∀ i, 0 < ([2, 2, 4] : List Nat).getD i 0 → i ≤ 2 := by
    intro i hi
    by_contra hc
    rw [List.getD_eq_default _ _ (by simp; omega)] at hi
    omega
  have h := normalization_props [2, 2, 4] 3 2 headSel [2, 2, 4] [2, 2, 4]
    hsel hms
  exact ⟨h.1 (by rfl), h.2 (by rfl)⟩

set_option maxRecDepth 20000 in
/-- C4: the run-length check compares each count to the number of
histogram bins (`hist.len()`), not to `sum(hist)`.  On the 256-bin
histogram of "AAAAAAAAAA" (`H[65] = 10 = sum(H)`) both normalizers
return `Ok` instead of the RunLengthEncoding error, and on `H = [2, 2]`
(no count equals `sum = 4`) the error is raised spuriously because
`H[0] = 2 = hist.len()`. -/
theorem rle_check_code_bug :
    fast_normalization_1
        (List.replicate 65 0 ++ 10 :: List.replicate 190 0) 5
      = some (Except.ok
        (List.replicate 65 0 ++ 32 :: List.replicate 190 0)) ∧
    normalization_with_fast_compensation
        (List.replicate 65 0 ++ 10 :: List.replicate 190 0) 5
      = some (Except.ok
        (List.replicate 65 0 ++ 32 :: List.replicate 190 0)) ∧
    (List.replicate 65 (0 : Nat) ++ 10 :: List.replicate 190 0).getD 65 0
      = (List.replicate 65 (0 : Nat) ++ 10 :: List.replicate 190 0).sum ∧
    fast_normalization_1 [2, 2] 4
      = some (Except.error NormError.RunLengthEncoding) ∧
    normalization_with_fast_compensation [2, 2] 4
      = some (Except.error NormError.RunLengthEncoding) ∧
    ∀ s, ([2, 2] : List Nat).getD s 0 ≠ ([2, 2] : List Nat).sum := by
  refine ⟨rfl, rfl, by decide, rfl, rfl, ?_⟩
  intro s
  match s with
  | 0 => decide
  | 1 => decide
  | s + 2 =>
    rw [List.getD_eq_default _ _ (by simp)]
    decide

/-! ## tANS (`src/t_ans.rs`)

`31 - ((c-1) as u32).leading_zeros()` is embedded as
`31 - (32 - (c - 1).size)` (`leading_zeros v = 32 - v.size` for a `u32`),
and `usize::BITS - 1 - x.leading_zeros()` as `63 - (64 - x.size)`.
`Vec` indexing, which panics out of range in Rust, is embedded with
`List.getD`/`List.set`; the claims' hypotheses keep every index in
range.  `i32` quantities (`starts`, `total`) are `Int`, with the
`as usize` cast of a (provably nonnegative) sum embedded as
`Int.toNat`. -/

/-- First loop of `build_encode_table` (t_ans.rs:33-56): per-symbol
`delta_nb_bits` and `starts`, accumulating the signed running total of
the counts.  Position `s` of the result lists corresponds to symbol
`s`. -/
def betLoop (table_log table_size : Nat) : List Nat → Int →
    List Nat × List Int
  | [], _ => ([], [])
  | c :: t, total =>
    if c = 1 then
      (((table_log <<< 16) - table_size)
          :: (betLoop table_log table_size t (total + 1)).1,
        (total - (c : Int))
          :: (betLoop table_log table_size t (total + 1)).2)
    else if 0 < c then
      (((((table_log - (31 - (32 - (c - 1).size))) <<< 16)
            - (c <<< (table_log - (31 - (32 - (c - 1).size)))))
          :: (betLoop table_log table_size t (total + (c : Int))).1),
        (total - (c : Int))
          :: (betLoop table_log table_size t (total + (c : Int))).2)
    else
      (0 :: (betLoop table_log table_size t total).1,
        0 :: (betLoop table_log table_size t total).2)

/-- Second loop of `build_encode_table` (t_ans.rs:60-64): for
`x in table_size..2*table_size` write
`table[(starts[s] + nexts[s]) as usize] = x` for `s = spread[x -
table_size]` and bump `nexts[s]`.  `k` counts the remaining
iterations. -/
def betFill (starts : List Int) (spread : List Nat) (table_size : Nat) :
    Nat → Nat → List Nat → List Nat → List Nat × List Nat
  | 0, _, table, nexts => (table, nexts)
  | k + 1, x, table, nexts =>
    betFill starts spread table_size k (x + 1)
      (table.set (((starts.getD (spread.getD (x - table_size) 0) 0)
        + (nexts.getD (spread.getD (x - table_size) 0) 0 : Int)).toNat) x)
      (nexts.set (spread.getD (x - table_size) 0)
        (nexts.getD (spread.getD (x - table_size) 0) 0 + 1))

/-- `build_encode_table` (t_ans.rs:24): returns
`(table, delta_nb_bits, starts)`; `table` has length `2^R + 2` and
`nexts` starts as a copy of the histogram. -/
def build_encode_table (hist : List Nat) (table_log : Nat)
    (spread : List Nat) : List Nat × List Nat × List Int :=
  let table_size := 1 <<< table_log
  ((betFill (betLoop table_log table_size hist 0).2 spread table_size
      table_size table_size (List.replicate (table_size + 2) 0) hist).1,
    (betLoop table_log table_size hist 0).1,
    (betLoop table_log table_size hist 0).2)

/-- `encode_symbol` (t_ans.rs:73): write the low
`(state + delta_nb_bits[symbol]) >> 16` bits of `state` to the stream
and jump through the encode table. -/
def encode_symbol (delta_nb_bits : List Nat) (starts : List Int)
    (table : List Nat) (state symbol : Nat) (stream : List Bool) :
    Nat × List Bool :=
  let nb_bits_out := (state + delta_nb_bits.getD symbol 0) >>> 16
  (table.getD (((state >>> nb_bits_out : Nat) : Int)
      + starts.getD symbol 0).toNat 0,
    pushBits state nb_bits_out stream)

/-- `decode_symbol` (t_ans.rs:87): read `nb_bits[state]` bits, add them
to `new_states[state]`, and emit `spread[state]`; a failed read is the
`unwrap_or_else` panic. -/
def decode_symbol (dstream : List Bool) (nb_bits new_states : List Nat)
    (state : Nat) (spread : List Nat) :
    Option ((Nat × Nat) × List Bool) :=
  match readBits (nb_bits.getD state 0) dstream with
  | none => none
  | some (bits, rest) =>
    some ((new_states.getD state 0 + bits, spread.getD state 0), rest)

/-- Loop of `build_decode_table` (t_ans.rs:132-140): for each state in
`0..2^R`, take the next `x` of `spread[state]`'s counter and record
`(table_log - floor(log2 x), (x << nb_bits) - table_size)`.  Position
`j` of the result lists corresponds to state `p + j` where `p` is the
starting state. -/
def bdtLoop (spread : List Nat) (table_log : Nat) :
    Nat → Nat → List Nat → List Nat × List Nat
  | 0, _, _ => ([], [])
  | k + 1, state, symbol_next =>
    ((table_log - (63 - (64 - (symbol_next.getD (spread.getD state 0) 0).size)))
        :: (bdtLoop spread table_log k (state + 1)
          (symbol_next.set (spread.getD state 0)
            (symbol_next.getD (spread.getD state 0) 0 + 1))).1,
      (((symbol_next.getD (spread.getD state 0) 0)
          <<< (table_log - (63 - (64 - (symbol_next.getD (spread.getD state 0) 0).size))))
            - (1 <<< table_log))
        :: (bdtLoop spread table_log k (state + 1)
          (symbol_next.set (spread.getD state 0)
            (symbol_next.getD (spread.getD state 0) 0 + 1))).2)

/-- `build_decode_table` (t_ans.rs:123): `(nb_bits, new_state)`, both of
length `2^R`, built from a working copy of the histogram. -/
def build_decode_table (table_log : Nat) (spread : List Nat)
    (histogram : List Nat) : List Nat × List Nat :=
  bdtLoop spread table_log (1 <<< table_log) 0 histogram

/-- `encode_tans` (t_ans.rs:177): panics (`none`) when the initial state
is below `2^table_log`; folds `encode_symbol` over the source and
returns the finalized stream together with `state - 2^table_log`. -/
def encode_tans (src : List Nat) (histogram : List Nat)
    (spread : List Nat) (table_log : Nat) (state : Nat) :
    Option (List Bool × Nat) :=
  if state < 1 <<< table_log then none
  else
    let bet := build_encode_table histogram table_log spread
    let fin := src.foldl (fun (p : Nat × List Bool) symbol =>
      encode_symbol bet.2.1 bet.2.2 bet.1 p.1 symbol p.2) (state, [])
    some (finalizeStream fin.2, fin.1 - (1 <<< table_log))

/-- Decoding loop of `decode_tans` (t_ans.rs:220-224): the destination
is filled back to front, so the first decoded symbol is the last element
of the result.  Returns the reconstructed buffer and the remaining
stream. -/
def decodeLoopTans (nb_bits new_states spread : List Nat) :
    Nat → Nat → List Bool → Option (List Nat × List Bool)
  | 0, _, stream => some ([], stream)
  | n + 1, state, stream =>
    match decode_symbol stream nb_bits new_states state spread with
    | none => none
    | some ((state2, sym), rest) =>
      match decodeLoopTans nb_bits new_states spread n state2 rest with
      | none => none
      | some (acc, rest2) => some (acc ++ [sym], rest2)

/-- `decode_tans` (t_ans.rs:209): build the decode table, consume the
stream mark, and decode `dst_len` symbols starting from the state
returned by `encode_tans`. -/
def decode_tans (src : List Bool) (histogram : List Nat)
    (spread : List Nat) (table_log : Nat) (state : Nat)
    (dst_len : Nat) : Option (List Nat) :=
  match readBits 1 src with
  | none => none
  | some (_, rest) =>
    match decodeLoopTans (build_decode_table table_log spread histogram).1
        (build_decode_table table_log spread histogram).2 spread
        dst_len state rest with
    | none => none
    | some (dst, _) => some dst

/-- `max_bits_out` of t_ans.rs:51 (with the `c = 1` case of t_ans.rs:46
folded in as `R`, since `(R << 16) - 2^R = (R << 16) - (1 << R)`). -/
def maxBitsOut (R c : Nat) : Nat :=
  if c = 1 then R else R - (31 - (32 - (c - 1).size))

/-- Uniform closed form of `delta_nb_bits[s]` (t_ans.rs:46 and :52). -/
def deltaNbBits (R c : Nat) : Nat :=
  (maxBitsOut R c <<< 16) - (c <<< maxBitsOut R c)

theorem size_of_bounds (a v : Nat) (h1 : 2 ^ a ≤ v) (h2 : v < 2 ^ (a + 1)) :
    v.size = a + 1 := by
  have hle : v.size ≤ a + 1 := Nat.size_le.mpr h2
  have hlt : a < v.size := Nat.lt_size.mpr h1
  omega

theorem betLoop_len (R L : Nat) (l : List Nat) : ∀ tot : Int,
    (betLoop R L l tot).1.length = l.length ∧
    (betLoop R L l tot).2.length = l.length := by
  induction l with
  | nil => intro tot; exact ⟨rfl, rfl⟩
  | cons c t ih =>
    intro tot
    by_cases h1 : c = 1
    · simp [betLoop, h1, (ih (tot + 1)).1, (ih (tot + 1)).2]
    · by_cases h0 : 0 < c
      · simp [betLoop, h1, h0, (ih (tot + (c : Int))).1,
          (ih (tot + (c : Int))).2]
      · simp [betLoop, h1, h0, (ih tot).1, (ih tot).2]

theorem betLoop_spec (R : Nat) (l : List Nat) :
    ∀ (tot : Int) (s : Nat), s < l.length → 0 < l.getD s 0 →
    (betLoop R (1 <<< R) l tot).1.getD s 0 = deltaNbBits R (l.getD s 0) ∧
    (betLoop R (1 <<< R) l tot).2.getD s 0
      = tot + ((l.take s).sum : Int) - (l.getD s 0 : Int) := by
  induction l with
  | nil =>
    intro tot s hs
    simp at hs
  | cons c t ih =>
    intro tot s hs hpos
    cases s with
    | zero =>
      simp only [List.getD_cons_zero] at hpos ⊢
      by_cases h1 : c = 1
      · subst h1
        refine ⟨by simp [betLoop, deltaNbBits, maxBitsOut], by simp [betLoop]⟩
      · refine ⟨by simp [betLoop, h1, hpos, deltaNbBits, maxBitsOut],
          by simp [betLoop, h1, hpos]⟩
    | succ s =>
      simp only [List.getD_cons_succ] at hpos ⊢
      have hs' : s < t.length := by simpa using hs
      have htake : ((c :: t).take (s + 1)).sum = c + (t.take s).sum := by
        simp [List.take_succ_cons]
      by_cases h1 : c = 1
      · have hrec := ih (tot + 1) s hs' hpos
        refine ⟨?_, ?_⟩
        · simp only [betLoop, if_pos h1, List.getD_cons_succ]
          exact hrec.1
        · simp only [betLoop, if_pos h1, List.getD_cons_succ]
          rw [hrec.2, htake, h1]
          push_cast
          ring
      · by_cases h0 : 0 < c
        · have hrec := ih (tot + (c : Int)) s hs' hpos
          refine ⟨?_, ?_⟩
          · simp only [betLoop, if_neg h1, if_pos h0, List.getD_cons_succ]
            exact hrec.1
          · simp only [betLoop, if_neg h1, if_pos h0, List.getD_cons_succ]
            rw [hrec.2, htake]
            push_cast
            ring
        · have hrec := ih tot s hs' hpos
          have hc0 : c = 0 := by omega
          refine ⟨?_, ?_⟩
          · simp only [betLoop, if_neg h1, if_neg h0, List.getD_cons_succ]
            exact hrec.1
          · simp only [betLoop, if_neg h1, if_neg h0, List.getD_cons_succ]
            rw [hrec.2, htake, hc0]
            push_cast
            ring

/-- Basic interval facts about `max_bits_out`: with `m = maxBitsOut R c`,
`c * 2^m` straddles `[2^R, 2^(R+1)]` and `c * 2^(m-1) ≤ 2^R`. -/
theorem maxBitsOut_facts (R c : Nat) (hR1 : 1 ≤ R) (hR : R ≤ 15)
    (hc : 1 ≤ c) (hcR : c ≤ 2 ^ R) :
    1 ≤ maxBitsOut R c ∧ maxBitsOut R c ≤ R ∧
    2 ^ R ≤ c * 2 ^ maxBitsOut R c ∧
    c * 2 ^ maxBitsOut R c ≤ 2 ^ (R + 1) ∧
    c * 2 ^ (maxBitsOut R c - 1) ≤ 2 ^ R := by
  by_cases h1 : c = 1
  · subst h1
    simp only [maxBitsOut, if_pos rfl, one_mul]
    have hRm : (2:Nat) ^ (R - 1) ≤ 2 ^ R := Nat.pow_le_pow_right (by norm_num) (by omega)
    have hRs : (2:Nat) ^ R ≤ 2 ^ (R + 1) := Nat.pow_le_pow_right (by norm_num) (by omega)
    exact ⟨hR1, le_rfl, le_rfl, hRs, hRm⟩
  · have hc2 : 2 ≤ c := by omega
    have hsz1 : 1 ≤ (c - 1).size := by
      have := Nat.lt_size.mpr (show 2 ^ 0 ≤ c - 1 by simpa using (by omega : 1 ≤ c - 1))
      omega
    have hszR : (c - 1).size ≤ R := Nat.size_le.mpr (by omega)
    have hbv : 31 - (32 - (c - 1).size) = (c - 1).size - 1 := by omega
    simp only [maxBitsOut, if_neg h1, hbv]
    have hb2 : 2 ^ ((c - 1).size - 1) ≤ c - 1 :=
      Nat.lt_size.mp (by omega)
    have hb3 : c - 1 < 2 ^ ((c - 1).size - 1 + 1) :=
      Nat.size_le.mp (by omega)
    have hm : R - ((c - 1).size - 1) - 1 + 1 = R - ((c - 1).size - 1) := by
      omega
    have hpow1 : 2 ^ ((c - 1).size - 1) * 2 ^ (R - ((c - 1).size - 1))
        = 2 ^ R := by
      rw [← pow_add]
      congr 1
      omega
    have hpow2 : 2 ^ ((c - 1).size - 1 + 1) * 2 ^ (R - ((c - 1).size - 1))
        = 2 ^ (R + 1) := by
      rw [← pow_add]
      congr 1
      omega
    have hpow3 : 2 ^ ((c - 1).size - 1 + 1)
        * 2 ^ (R - ((c - 1).size - 1) - 1) = 2 ^ R := by
      rw [← pow_add]
      congr 1
      omega
    refine ⟨by omega, by omega, ?_, ?_, ?_⟩
    · calc 2 ^ R = 2 ^ ((c - 1).size - 1) * 2 ^ (R - ((c - 1).size - 1)) :=
            hpow1.symm
        _ ≤ c * 2 ^ (R - ((c - 1).size - 1)) :=
            Nat.mul_le_mul_right _ (by omega)
    · calc c * 2 ^ (R - ((c - 1).size - 1))
          ≤ 2 ^ ((c - 1).size - 1 + 1) * 2 ^ (R - ((c - 1).size - 1)) :=
            Nat.mul_le_mul_right _ (by omega)
        _ = 2 ^ (R + 1) := hpow2
    · calc c * 2 ^ (R - ((c - 1).size - 1) - 1)
          ≤ 2 ^ ((c - 1).size - 1 + 1) * 2 ^ (R - ((c - 1).size - 1) - 1) :=
            Nat.mul_le_mul_right _ (by omega)
        _ = 2 ^ R := hpow3

/-- Arithmetic core of one tANS encode step from a state in `[L, 2L)`:
the bit count `nb = (x + delta_nb_bits[s]) >> 16` is at most `R`, the
shifted state `x >> nb` lands in `[c, 2c)`, and its bit length is
`R - nb + 1` (so the decode table reads back exactly `nb` bits). -/
theorem tans_nb_spec (R c x : Nat) (hR1 : 1 ≤ R) (hR : R ≤ 15)
    (hc : 1 ≤ c) (hcR : c ≤ 2 ^ R)
    (hx1 : 2 ^ R ≤ x) (hx2 : x < 2 ^ (R + 1)) :
    ((x + deltaNbBits R c) >>> 16) ≤ R ∧
    c ≤ x >>> ((x + deltaNbBits R c) >>> 16) ∧
    x >>> ((x + deltaNbBits R c) >>> 16) < 2 * c ∧
    (x >>> ((x + deltaNbBits R c) >>> 16)).size
      = R - ((x + deltaNbBits R c) >>> 16) + 1 := by
  obtain ⟨hm1, hmR, hP2a, hP2b, hP3⟩ := maxBitsOut_facts R c hR1 hR hc hcR
  unfold deltaNbBits
  generalize hmv : maxBitsOut R c = m at *
  rw [Nat.shiftLeft_eq, Nat.shiftLeft_eq]
  simp only [Nat.shiftRight_eq_div_pow]
  have hpow16 : (2:Nat) ^ (R + 1) ≤ 2 ^ 16 :=
    Nat.pow_le_pow_right (by norm_num) (by omega)
  have h16 : (0:Nat) < 2 ^ 16 := by positivity
  have hcm16 : c * 2 ^ m ≤ 2 ^ 16 := le_trans hP2b hpow16
  have h2R1 : (2:Nat) ^ (R + 1) = 2 * 2 ^ R := by ring
  by_cases hxc : c * 2 ^ m ≤ x
  · have hnb : (x + (m * 2 ^ 16 - c * 2 ^ m)) / 2 ^ 16 = m := by
      have hA : x + (m * 2 ^ 16 - c * 2 ^ m)
          = 2 ^ 16 * m + (x - c * 2 ^ m) := by
        have hle : c * 2 ^ m ≤ m * 2 ^ 16 := by
          calc c * 2 ^ m ≤ 2 ^ 16 := hcm16
            _ ≤ m * 2 ^ 16 := by
              have := Nat.mul_le_mul_right (2 ^ 16) hm1
              omega
        omega
      rw [hA, Nat.mul_add_div h16, Nat.div_eq_of_lt (by omega)]
      omega
    rw [hnb]
    have hposm : (0:Nat) < 2 ^ m := by positivity
    have hyc : c ≤ x / 2 ^ m := (Nat.le_div_iff_mul_le hposm).mpr hxc
    have hy2c : x / 2 ^ m < 2 * c := by
      rw [Nat.div_lt_iff_lt_mul hposm]
      have : 2 * c * 2 ^ m = 2 * (c * 2 ^ m) := by ring
      omega
    refine ⟨by omega, hyc, hy2c, ?_⟩
    have hyl : 2 ^ (R - m) ≤ x / 2 ^ m := by
      rw [Nat.le_div_iff_mul_le hposm, ← pow_add]
      have : R - m + m = R := by omega
      rw [this]
      exact hx1
    have hyu : x / 2 ^ m < 2 ^ (R - m + 1) := by
      rw [Nat.div_lt_iff_lt_mul hposm, ← pow_add]
      have : R - m + 1 + m = R + 1 := by omega
      rw [this]
      exact hx2
    exact size_of_bounds _ _ hyl hyu
  · push_neg at hxc
    have hnb : (x + (m * 2 ^ 16 - c * 2 ^ m)) / 2 ^ 16 = m - 1 := by
      have hA : x + (m * 2 ^ 16 - c * 2 ^ m)
          = 2 ^ 16 * (m - 1) + (2 ^ 16 - (c * 2 ^ m - x)) := by
        have hle : c * 2 ^ m ≤ m * 2 ^ 16 := by
          calc c * 2 ^ m ≤ 2 ^ 16 := hcm16
            _ ≤ m * 2 ^ 16 := by
              have := Nat.mul_le_mul_right (2 ^ 16) hm1
              omega
        omega
      rw [hA, Nat.mul_add_div h16, Nat.div_eq_of_lt (by omega)]
      omega
    rw [hnb]
    have hposm : (0:Nat) < 2 ^ (m - 1) := by positivity
    have hsplit : 2 * 2 ^ (m - 1) = 2 ^ m := by
      rw [← pow_succ']
      congr 1
      omega
    have hyc : c ≤ x / 2 ^ (m - 1) := by
      rw [Nat.le_div_iff_mul_le hposm]
      exact le_trans hP3 hx1
    have hy2c : x / 2 ^ (m - 1) < 2 * c := by
      rw [Nat.div_lt_iff_lt_mul hposm]
      have : 2 * c * 2 ^ (m - 1) = c * (2 * 2 ^ (m - 1)) := by ring
      rw [this, hsplit]
      exact hxc
    refine ⟨by omega, hyc, hy2c, ?_⟩
    have hyl : 2 ^ (R - (m - 1)) ≤ x / 2 ^ (m - 1) := by
      rw [Nat.le_div_iff_mul_le hposm, ← pow_add]
      have : R - (m - 1) + (m - 1) = R := by omega
      rw [this]
      exact hx1
    have hyu : x / 2 ^ (m - 1) < 2 ^ (R - (m - 1) + 1) := by
      rw [Nat.div_lt_iff_lt_mul hposm, ← pow_add]
      have : R - (m - 1) + 1 + (m - 1) = R + 1 := by omega
      rw [this]
      exact hx2
    exact size_of_bounds _ _ hyl hyu

/-- Decoder counter value at spread position `q`: `F[s] + (number of
occurrences of `s = spread[q]` before `q`)`. -/
def spreadX (F spread : List Nat) (q : Nat) : Nat :=
  F.getD (spread.getD q 0) 0 + (spread.take q).count (spread.getD q 0)

/-- Encode-table slot written while the fill loop visits spread position
`q`: the cumulative start of `spread[q]` plus the number of its earlier
occurrences. -/
def tansIdx (F spread : List Nat) (q : Nat) : Nat :=
  (F.take (spread.getD q 0)).sum + (spread.take q).count (spread.getD q 0)

theorem take_succ_getD (l : List Nat) (p : Nat) (hp : p < l.length) :
    l.take (p + 1) = l.take p ++ [l.getD p 0] := by
  rw [List.take_succ, List.getElem?_eq_getElem hp,
    List.getD_eq_getElem l 0 hp]
  rfl

theorem count_take_mono (l : List Nat) (s a b : Nat) (h : a ≤ b) :
    (l.take a).count s ≤ (l.take b).count s := by
  have : l.take a = (l.take b).take a := by
    rw [List.take_take, Nat.min_eq_left h]
  rw [this]
  exact (List.take_sublist _ _).count_le s

theorem count_take_lt (l : List Nat) (q : Nat) (hq : q < l.length) :
    (l.take q).count (l.getD q 0) < l.count (l.getD q 0) := by
  have h1 : (l.take (q + 1)).count (l.getD q 0)
      = (l.take q).count (l.getD q 0) + 1 := by
    rw [take_succ_getD l q hq, List.count_append]
    simp
  have h2 : (l.take (q + 1)).count (l.getD q 0) ≤ l.count (l.getD q 0) :=
    (List.take_sublist _ _).count_le _
  omega

theorem count_take_strict (l : List Nat) (q q' : Nat) (hq : q < l.length)
    (hqq : q < q') :
    (l.take q).count (l.getD q 0) < (l.take q').count (l.getD q 0) := by
  have h1 : (l.take (q + 1)).count (l.getD q 0)
      = (l.take q).count (l.getD q 0) + 1 := by
    rw [take_succ_getD l q hq, List.count_append]
    simp
  have h2 := count_take_mono l (l.getD q 0) (q + 1) q' (by omega)
  omega

theorem spread_sym (F spread : List Nat)
    (hcount : ∀ s, spread.count s = F.getD s 0) (q : Nat)
    (hq : q < spread.length) :
    spread.getD q 0 < F.length ∧ 1 ≤ F.getD (spread.getD q 0) 0 := by
  have hmem : spread.getD q 0 ∈ spread := by
    rw [List.getD_eq_getElem spread 0 hq]
    exact List.getElem_mem _
  have hcnt : 0 < spread.count (spread.getD q 0) :=
    List.count_pos_iff.mpr hmem
  have hF : 1 ≤ F.getD (spread.getD q 0) 0 := by
    rw [← hcount]
    omega
  exact ⟨getD_pos_lt _ _ (by omega), hF⟩

theorem sum_take_mono (F : List Nat) (a b : Nat) (h : a ≤ b) :
    (F.take a).sum ≤ (F.take b).sum := by
  have : F.take a = (F.take b).take a := by
    rw [List.take_take, Nat.min_eq_left h]
  rw [this]
  exact take_sum_le _ _

theorem tansIdx_lt (F spread : List Nat)
    (hcount : ∀ s, spread.count s = F.getD s 0) (q : Nat)
    (hq : q < spread.length) : tansIdx F spread q < F.sum := by
  obtain ⟨hsl, hsc⟩ := spread_sym F spread hcount q hq
  have hk : (spread.take q).count (spread.getD q 0)
      < F.getD (spread.getD q 0) 0 := by
    rw [← hcount]
    exact count_take_lt spread q hq
  have hsum : (F.take (spread.getD q 0)).sum
      + F.getD (spread.getD q 0) 0 ≤ F.sum := by
    rw [← take_succ_sum F _ hsl]
    exact take_sum_le _ _
  unfold tansIdx
  omega

theorem tansIdx_inj (F spread : List Nat)
    (hcount : ∀ s, spread.count s = F.getD s 0) (q q' : Nat)
    (hqq : q < q') (hq' : q' < spread.length) :
    tansIdx F spread q ≠ tansIdx F spread q' := by
  have hq : q < spread.length := lt_trans hqq hq'
  unfold tansIdx
  by_cases hss : spread.getD q 0 = spread.getD q' 0
  · rw [← hss]
    have := count_take_strict spread q q' hq hqq
    omega
  · obtain ⟨hsl, -⟩ := spread_sym F spread hcount q hq
    obtain ⟨hsl', -⟩ := spread_sym F spread hcount q' hq'
    have hkq : (spread.take q).count (spread.getD q 0)
        < F.getD (spread.getD q 0) 0 := by
      rw [← hcount]; exact count_take_lt spread q hq
    have hkq' : (spread.take q').count (spread.getD q' 0)
        < F.getD (spread.getD q' 0) 0 := by
      rw [← hcount]; exact count_take_lt spread q' hq'
    rcases Nat.lt_or_ge (spread.getD q 0) (spread.getD q' 0) with hlt | hge
    · have h1 : (F.take (spread.getD q 0)).sum
          + F.getD (spread.getD q 0) 0
            ≤ (F.take (spread.getD q' 0)).sum := by
        rw [← take_succ_sum F _ hsl]
        exact sum_take_mono F _ _ (by omega)
      omega
    · have hlt' : spread.getD q' 0 < spread.getD q 0 := by omega
      have h1 : (F.take (spread.getD q' 0)).sum
          + F.getD (spread.getD q' 0) 0
            ≤ (F.take (spread.getD q 0)).sum := by
        rw [← take_succ_sum F _ hsl']
        exact sum_take_mono F _ _ (by omega)
      omega

theorem exists_occurrence (l : List Nat) (s : Nat) : ∀ k, k < l.count s →
    ∃ q, q < l.length ∧ l.getD q 0 = s ∧ (l.take q).count s = k := by
  induction l with
  | nil =>
    intro k hk
    simp at hk
  | cons a t ih =>
    intro k hk
    by_cases has : a = s
    · cases k with
      | zero =>
        exact ⟨0, by simp, by simp [has], by simp⟩
      | succ k =>
        have hk' : k < t.count s := by
          rw [List.count_cons] at hk
          simp [has] at hk
          omega
        obtain ⟨q, hq1, hq2, hq3⟩ := ih k hk'
        refine ⟨q + 1, by simpa using hq1, by simpa using hq2, ?_⟩
        rw [List.take_succ_cons, List.count_cons]
        simp [has, hq3]
    · have hk' : k < t.count s := by
        rw [List.count_cons] at hk
        simp [has] at hk
        exact hk
      obtain ⟨q, hq1, hq2, hq3⟩ := ih k hk'
      refine ⟨q + 1, by simpa using hq1, by simpa using hq2, ?_⟩
      rw [List.take_succ_cons, List.count_cons]
      simp [has, hq3]

/-- Characterization of the encode-table fill loop: starting at spread
position `p` with `k` iterations left and the per-symbol cursors equal
to `F[s]` plus the occurrences of `s` before `p`, the loop writes
`2^R + q` exactly at slot `tansIdx q` for each visited position `q` and
leaves every other slot untouched. -/
theorem betFill_spec (F spread : List Nat) (R : Nat)
    (starts : List Int)
    (hsum : F.sum = 2 ^ R)
    (hlen : spread.length = 2 ^ R)
    (hcount : ∀ s, spread.count s = F.getD s 0)
    (hstarts : ∀ s, s < F.length → 0 < F.getD s 0 →
      starts.getD s 0 = ((F.take s).sum : Int) - (F.getD s 0 : Int)) :
    ∀ (k p : Nat) (table nexts : List Nat),
    p + k ≤ 2 ^ R →
    table.length = 2 ^ R + 2 →
    nexts.length = F.length →
    (∀ s, s < F.length →
      nexts.getD s 0 = F.getD s 0 + (spread.take p).count s) →
    ((betFill starts spread (2 ^ R) k (2 ^ R + p) table nexts).1.length
        = table.length) ∧
    (∀ j, (∀ q, p ≤ q → q < p + k → j ≠ tansIdx F spread q) →
      (betFill starts spread (2 ^ R) k (2 ^ R + p) table nexts).1.getD j 0
        = table.getD j 0) ∧
    (∀ q, p ≤ q → q < p + k →
      (betFill starts spread (2 ^ R) k (2 ^ R + p) table nexts).1.getD
        (tansIdx F spread q) 0 = 2 ^ R + q) := by
  intro k
  induction k with
  | zero =>
    intro p table nexts hpk htl hnl hn
    refine ⟨rfl, fun j _ => rfl, fun q hq1 hq2 => ?_⟩
    omega
  | succ k ih =>
    intro p table nexts hpk htl hnl hn
    have hp : p < spread.length := by omega
    obtain ⟨hsl, hsc⟩ := spread_sym F spread hcount p hp
    have hidx : ((starts.getD (spread.getD p 0) 0)
        + (nexts.getD (spread.getD p 0) 0 : Int)).toNat
          = tansIdx F spread p := by
      rw [hstarts _ hsl (by omega), hn _ hsl]
      have heq : ((F.take (spread.getD p 0)).sum : Int)
          - (F.getD (spread.getD p 0) 0 : Int)
          + ((F.getD (spread.getD p 0) 0
            + (spread.take p).count (spread.getD p 0) : Nat) : Int)
          = ((tansIdx F spread p : Nat) : Int) := by
        unfold tansIdx
        push_cast
        ring
      rw [heq, Int.toNat_natCast]
    have hstep : betFill starts spread (2 ^ R) (k + 1) (2 ^ R + p)
        table nexts
        = betFill starts spread (2 ^ R) k (2 ^ R + (p + 1))
          (table.set (tansIdx F spread p) (2 ^ R + p))
          (nexts.set (spread.getD p 0)
            (nexts.getD (spread.getD p 0) 0 + 1)) := by
      have hpp : 2 ^ R + p - 2 ^ R = p := by omega
      have hx1 : 2 ^ R + p + 1 = 2 ^ R + (p + 1) := by omega
      simp only [betFill, hpp, hidx, hx1]
    have hn' : ∀ s, s < F.length →
        (nexts.set (spread.getD p 0)
          (nexts.getD (spread.getD p 0) 0 + 1)).getD s 0
        = F.getD s 0 + (spread.take (p + 1)).count s := by
      intro s hs
      rw [take_succ_getD spread p hp, List.count_append]
      by_cases hss : spread.getD p 0 = s
      · rw [hss, getD_set_self _ _ _ (by rw [hnl]; exact hs), hn s hs]
        have h1 : List.count s [s] = 1 := by simp
        omega
      · rw [getD_set_ne _ _ _ _ hss, hn s hs]
        have h0 : List.count s [spread.getD p 0] = 0 :=
          List.count_eq_zero.mpr (by
            simp only [List.mem_singleton]
            exact fun hh => hss hh.symm)
        omega
    obtain ⟨ihl, ihf, ihw⟩ := ih (p + 1)
      (table.set (tansIdx F spread p) (2 ^ R + p))
      (nexts.set (spread.getD p 0)
        (nexts.getD (spread.getD p 0) 0 + 1))
      (by omega) (by rw [List.length_set]; exact htl)
      (by rw [List.length_set]; exact hnl) hn'
    have hidxlt : tansIdx F spread p < table.length := by
      rw [htl]
      have := tansIdx_lt F spread hcount p hp
      omega
    refine ⟨?_, ?_, ?_⟩
    · rw [hstep, ihl, List.length_set]
    · intro j hj
      rw [hstep, ihf j (fun q hq1 hq2 => hj q (by omega) (by omega)),
        getD_set_ne _ _ _ _ (fun hh => hj p (le_refl p) (by omega) hh.symm)]
    · intro q hq1 hq2
      rcases Nat.eq_or_lt_of_le hq1 with heq | hlt
      · rw [← heq, hstep, ihf (tansIdx F spread p)
          (fun q' hq1' hq2' => tansIdx_inj F spread hcount p q'
            (by omega) (by omega)),
          getD_set_self _ _ _ hidxlt]
      · rw [hstep]
        exact ihw q (by omega) (by omega)

theorem getD_le_sum (F : List Nat) (s : Nat) : F.getD s 0 ≤ F.sum := by
  by_cases hs : s < F.length
  · have h1 := take_succ_sum F s hs
    have h2 := take_sum_le F (s + 1)
    omega
  · rw [List.getD_eq_default _ _ (by omega)]
    omega

/-- Characterization of the decode-table loop: entry `j` (state `p + j`)
records `R - floor(log2 x)` bits and restart point `(x << nb) - 2^R`
for `x = spreadX (p + j)`. -/
theorem bdtLoop_spec (F spread : List Nat) (R : Nat)
    (hsum : F.sum = 2 ^ R) (hR : R ≤ 15)
    (hlen : spread.length = 2 ^ R)
    (hcount : ∀ s, spread.count s = F.getD s 0) :
    ∀ (k p : Nat) (symbol_next : List Nat),
    p + k ≤ 2 ^ R →
    symbol_next.length = F.length →
    (∀ s, s < F.length →
      symbol_next.getD s 0 = F.getD s 0 + (spread.take p).count s) →
    ((bdtLoop spread R k p symbol_next).1.length = k) ∧
    ((bdtLoop spread R k p symbol_next).2.length = k) ∧
    ∀ j, j < k →
      (bdtLoop spread R k p symbol_next).1.getD j 0
        = R - ((spreadX F spread (p + j)).size - 1) ∧
      (bdtLoop spread R k p symbol_next).2.getD j 0
        = ((spreadX F spread (p + j))
            <<< (R - ((spreadX F spread (p + j)).size - 1))) - 2 ^ R := by
  intro k
  induction k with
  | zero =>
    intro p symbol_next hpk hnl hn
    exact ⟨rfl, rfl, fun j hj => by omega⟩
  | succ k ih =>
    intro p symbol_next hpk hnl hn
    have hp : p < spread.length := by omega
    obtain ⟨hsl, hsc⟩ := spread_sym F spread hcount p hp
    have hx0 : symbol_next.getD (spread.getD p 0) 0 = spreadX F spread p := by
      rw [hn _ hsl]
      rfl
    have hx0ge : 1 ≤ spreadX F spread p := by
      unfold spreadX
      omega
    have hx0lt : spreadX F spread p < 2 ^ 16 := by
      have hFb : F.getD (spread.getD p 0) 0 ≤ 2 ^ R := by
        have := getD_le_sum F (spread.getD p 0)
        omega
      have hcb : (spread.take p).count (spread.getD p 0) ≤ p := by
        have h1 := List.count_le_length (spread.getD p 0) (spread.take p)
        have h2 : (spread.take p).length ≤ p := by
          simp [List.length_take]
        omega
      have hRb : (2:Nat) ^ R ≤ 2 ^ 15 :=
        Nat.pow_le_pow_right (by norm_num) hR
      unfold spreadX
      have h15 : (2:Nat) ^ 15 = 32768 := by norm_num
      have h16 : (2:Nat) ^ 16 = 65536 := by norm_num
      omega
    have hsz1 : 1 ≤ (spreadX F spread p).size := by
      have := Nat.lt_size.mpr (show 2 ^ 0 ≤ spreadX F spread p by simpa using hx0ge)
      omega
    have hsz64 : (spreadX F spread p).size ≤ 64 := by
      refine Nat.size_le.mpr ?_
      have : (2:Nat) ^ 16 ≤ 2 ^ 64 := Nat.pow_le_pow_right (by norm_num) (by norm_num)
      omega
    have hnbconv : 63 - (64 - (spreadX F spread p).size)
        = (spreadX F spread p).size - 1 := by omega
    have hn' : ∀ s, s < F.length →
        (symbol_next.set (spread.getD p 0)
          (symbol_next.getD (spread.getD p 0) 0 + 1)).getD s 0
        = F.getD s 0 + (spread.take (p + 1)).count s := by
      intro s hs
      rw [take_succ_getD spread p hp, List.count_append]
      by_cases hss : spread.getD p 0 = s
      · rw [hss, getD_set_self _ _ _ (by rw [hnl]; exact hs), hn s hs]
        have h1 : List.count s [s] = 1 := by simp
        omega
      · rw [getD_set_ne _ _ _ _ hss, hn s hs]
        have h0 : List.count s [spread.getD p 0] = 0 :=
          List.count_eq_zero.mpr (by
            simp only [List.mem_singleton]
            exact fun hh => hss hh.symm)
        omega
    obtain ⟨ih1, ih2, ih3⟩ := ih (p + 1)
      (symbol_next.set (spread.getD p 0)
        (symbol_next.getD (spread.getD p 0) 0 + 1))
      (by omega) (by rw [List.length_set]; exact hnl) hn'
    refine ⟨?_, ?_, ?_⟩
    · simp only [bdtLoop, List.length_cons, ih1]
    · simp only [bdtLoop, List.length_cons, ih2]
    · intro j hj
      cases j with
      | zero =>
        simp only [bdtLoop, List.getD_cons_zero, Nat.add_zero, hx0,
          hnbconv, Nat.one_shiftLeft]
        exact ⟨by trivial, by trivial⟩
      | succ j =>
        simp only [bdtLoop, List.getD_cons_succ]
        have hpj : p + 1 + j = p + (j + 1) := by omega
        have := ih3 j (by omega)
        rw [hpj] at this
        exact this

/-- One tANS step: from a state in `[L, 2L)` and a symbol of positive
normalized frequency, `encode_symbol` lands back in `[L, 2L)` and
`decode_symbol` at the new state's offset returns exactly the symbol,
the previous state's offset, and the stream as it was before the
step. -/
theorem tans_step (F spread : List Nat) (R : Nat)
    (hR1 : 1 ≤ R) (hR : R ≤ 15)
    (hsum : F.sum = 2 ^ R)
    (hlen : spread.length = 2 ^ R)
    (hcount : ∀ s, spread.count s = F.getD s 0)
    (s x : Nat) (hc : 1 ≤ F.getD s 0)
    (hx1 : 2 ^ R ≤ x) (hx2 : x < 2 ^ (R + 1)) (stream : List Bool) :
    2 ^ R ≤ (encode_symbol (build_encode_table F R spread).2.1
      (build_encode_table F R spread).2.2
      (build_encode_table F R spread).1 x s stream).1 ∧
    (encode_symbol (build_encode_table F R spread).2.1
      (build_encode_table F R spread).2.2
      (build_encode_table F R spread).1 x s stream).1 < 2 ^ (R + 1) ∧
    decode_symbol (encode_symbol (build_encode_table F R spread).2.1
      (build_encode_table F R spread).2.2
      (build_encode_table F R spread).1 x s stream).2
      (build_decode_table R spread F).1
      (build_decode_table R spread F).2
      ((encode_symbol (build_encode_table F R spread).2.1
        (build_encode_table F R spread).2.2
        (build_encode_table F R spread).1 x s stream).1 - 2 ^ R) spread
      = some ((x - 2 ^ R, s), stream) := by
  have hsF : s < F.length := getD_pos_lt F s (by omega)
  have hcR : F.getD s 0 ≤ 2 ^ R := by
    have := getD_le_sum F s
    omega
  have h2R1 : (2:Nat) ^ (R + 1) = 2 * 2 ^ R := by ring
  have hdelta : (build_encode_table F R spread).2.1.getD s 0
      = deltaNbBits R (F.getD s 0) := by
    have hb : (build_encode_table F R spread).2.1
        = (betLoop R (1 <<< R) F 0).1 := rfl
    rw [hb, (betLoop_spec R F 0 s hsF (by omega)).1]
  have hstart : (build_encode_table F R spread).2.2.getD s 0
      = ((F.take s).sum : Int) - (F.getD s 0 : Int) := by
    have hb : (build_encode_table F R spread).2.2
        = (betLoop R (1 <<< R) F 0).2 := rfl
    rw [hb, (betLoop_spec R F 0 s hsF (by omega)).2]
    ring
  obtain ⟨hnbR, hyc, hy2c, hysz⟩ :=
    tans_nb_spec R (F.getD s 0) x hR1 hR hc hcR hx1 hx2
  have hidx : ((((x >>> ((x + deltaNbBits R (F.getD s 0)) >>> 16)) : Nat) : Int)
      + (((F.take s).sum : Int) - ((F.getD s 0) : Int))).toNat
      = (F.take s).sum
        + (x >>> ((x + deltaNbBits R (F.getD s 0)) >>> 16) - F.getD s 0) := by
    omega
  simp only [encode_symbol]
  rw [hdelta, hstart, hidx]
  generalize hgen : (x + deltaNbBits R (F.getD s 0)) >>> 16 = nb
    at hnbR hyc hy2c hysz ⊢
  have hkc : x >>> nb - F.getD s 0 < F.getD s 0 := by omega
  obtain ⟨q, hqlen, hqsym, hqcnt⟩ := exists_occurrence spread s
    (x >>> nb - F.getD s 0) (by rw [hcount]; omega)
  have hq2R : q < 2 ^ R := by
    rw [hlen] at hqlen
    exact hqlen
  obtain ⟨-, -, hwrite⟩ := betFill_spec F spread R
    (betLoop R (1 <<< R) F 0).2 hsum hlen hcount
    (fun s' hs' hc' => by rw [(betLoop_spec R F 0 s' hs' hc').2]; ring)
    (2 ^ R) 0 (List.replicate (2 ^ R + 2) 0) F
    (by omega) (by simp) rfl (by intro s' _; simp)
  have hq2 : tansIdx F spread q
      = (F.take s).sum + (x >>> nb - F.getD s 0) := by
    unfold tansIdx
    rw [hqsym, hqcnt]
  have hb1 : (build_encode_table F R spread).1
      = (betFill (betLoop R (1 <<< R) F 0).2 spread (2 ^ R) (2 ^ R)
        (2 ^ R + 0) (List.replicate (2 ^ R + 2) 0) F).1 := by
    simp [build_encode_table, Nat.one_shiftLeft]
  have htable : (build_encode_table F R spread).1.getD
      ((F.take s).sum + (x >>> nb - F.getD s 0)) 0 = 2 ^ R + q := by
    rw [hb1, ← hq2]
    exact hwrite q (by omega) (by omega)
  rw [htable]
  refine ⟨by omega, by omega, ?_⟩
  rw [show 2 ^ R + q - 2 ^ R = q from by omega]
  obtain ⟨-, -, hbdt3⟩ := bdtLoop_spec F spread R hsum hR hlen hcount
    (2 ^ R) 0 F (by omega) rfl (by intro s' _; simp)
  have hnbq := (hbdt3 q hq2R).1
  have hnsq := (hbdt3 q hq2R).2
  simp only [Nat.zero_add] at hnbq hnsq
  have hsx : spreadX F spread q = x >>> nb := by
    unfold spreadX
    rw [hqsym, hqcnt]
    omega
  rw [hsx] at hnbq hnsq
  have hnb2 : R - ((x >>> nb).size - 1) = nb := by omega
  rw [hnb2] at hnbq hnsq
  have hbd : build_decode_table R spread F = bdtLoop spread R (2 ^ R) 0 F := by
    simp [build_decode_table, Nat.one_shiftLeft]
  rw [hbd]
  have hfinal : (bdtLoop spread R (2 ^ R) 0 F).2.getD q 0
      + x % 2 ^ nb = x - 2 ^ R := by
    rw [hnsq, Nat.shiftLeft_eq, Nat.shiftRight_eq_div_pow]
    have hdm : x / 2 ^ nb * 2 ^ nb + x % 2 ^ nb = x := Nat.div_add_mod' x (2 ^ nb)
    have hszlt : R - nb < (x >>> nb).size := by omega
    have h1 : 2 ^ (R - nb) ≤ x >>> nb := Nat.lt_size.mp hszlt
    rw [Nat.shiftRight_eq_div_pow] at h1
    have hyL : 2 ^ R ≤ x / 2 ^ nb * 2 ^ nb := by
      calc (2:Nat) ^ R = 2 ^ (R - nb) * 2 ^ nb := by
            rw [← pow_add]
            congr 1
            omega
        _ ≤ x / 2 ^ nb * 2 ^ nb := Nat.mul_le_mul_right _ h1
    omega
  simp only [decode_symbol, hnbq, readBits_pushBits, hfinal, hqsym]

/-- Folding `encode_symbol` over a source keeps the state in `[L, 2L)`
and the decode loop, run for `src.length` steps from the final state's
offset, reconstructs the source exactly and returns the stream to its
initial value. -/
theorem tans_loop (F spread : List Nat) (R : Nat)
    (hR1 : 1 ≤ R) (hR : R ≤ 15)
    (hsum : F.sum = 2 ^ R)
    (hlen : spread.length = 2 ^ R)
    (hcount : ∀ s, spread.count s = F.getD s 0)
    (src : List Nat) :
    ∀ (x : Nat) (st : List Bool),
    (∀ s ∈ src, 1 ≤ F.getD s 0) →
    2 ^ R ≤ x → x < 2 ^ (R + 1) →
    2 ^ R ≤ (src.foldl (fun (p : Nat × List Bool) symbol =>
      encode_symbol (build_encode_table F R spread).2.1
        (build_encode_table F R spread).2.2
        (build_encode_table F R spread).1 p.1 symbol p.2) (x, st)).1 ∧
    (src.foldl (fun (p : Nat × List Bool) symbol =>
      encode_symbol (build_encode_table F R spread).2.1
        (build_encode_table F R spread).2.2
        (build_encode_table F R spread).1 p.1 symbol p.2) (x, st)).1
      < 2 ^ (R + 1) ∧
    decodeLoopTans (build_decode_table R spread F).1
      (build_decode_table R spread F).2 spread src.length
      ((src.foldl (fun (p : Nat × List Bool) symbol =>
        encode_symbol (build_encode_table F R spread).2.1
          (build_encode_table F R spread).2.2
          (build_encode_table F R spread).1 p.1 symbol p.2) (x, st)).1
        - 2 ^ R)
      ((src.foldl (fun (p : Nat × List Bool) symbol =>
        encode_symbol (build_encode_table F R spread).2.1
          (build_encode_table F R spread).2.2
          (build_encode_table F R spread).1 p.1 symbol p.2) (x, st)).2)
      = some (src, st) := by
  induction src using List.reverseRecOn with
  | nil =>
    intro x st _ hx1 hx2
    exact ⟨hx1, hx2, rfl⟩
  | append_singleton src' sym ih =>
    intro x st hmem hx1 hx2
    obtain ⟨ih1, ih2, ih3⟩ := ih x st
      (fun s hs => hmem s (List.mem_append_left _ hs)) hx1 hx2
    have hsymmem : 1 ≤ F.getD sym 0 := hmem sym (by simp)
    obtain ⟨hs1, hs2, hs3⟩ := tans_step F spread R hR1 hR hsum hlen hcount
      sym
      ((src'.foldl (fun (p : Nat × List Bool) symbol =>
        encode_symbol (build_encode_table F R spread).2.1
          (build_encode_table F R spread).2.2
          (build_encode_table F R spread).1 p.1 symbol p.2) (x, st)).1)
      hsymmem ih1 ih2
      ((src'.foldl (fun (p : Nat × List Bool) symbol =>
        encode_symbol (build_encode_table F R spread).2.1
          (build_encode_table F R spread).2.2
          (build_encode_table F R spread).1 p.1 symbol p.2) (x, st)).2)
    have hlen2 : (src' ++ [sym]).length = src'.length + 1 := by simp
    rw [List.foldl_append, hlen2]
    simp only [List.foldl_cons, List.foldl_nil]
    exact ⟨hs1, hs2, by simp only [decodeLoopTans, hs3, ih3]⟩

/-- C7: tANS encode-state invariant.  For every normalized histogram `F`
with `sum F = 2^R` (spec range `R ≤ 15`), every spread table consistent
with `F` (length `2^R`, each symbol occurring `F[s]` times), every
symbol of positive frequency, and every state `x ∈ [2^R, 2·2^R)`, the
state returned by `encode_symbol` on the tables built by
`build_encode_table` is again in `[2^R, 2·2^R)`. -/
theorem tans_encode_state_invariant (F spread : List Nat) (R : Nat)
    (hR1 : 1 ≤ R) (hR : R ≤ 15)
    (hsum : F.sum = 2 ^ R)
    (hlen : spread.length = 2 ^ R)
    (hcount : ∀ s, spread.count s = F.getD s 0)
    (s x : Nat) (hc : 0 < F.getD s 0)
    (hx1 : 2 ^ R ≤ x) (hx2 : x < 2 * 2 ^ R) (stream : List Bool) :
    2 ^ R ≤ (encode_symbol (build_encode_table F R spread).2.1
      (build_encode_table F R spread).2.2
      (build_encode_table F R spread).1 x s stream).1 ∧
    (encode_symbol (build_encode_table F R spread).2.1
      (build_encode_table F R spread).2.2
      (build_encode_table F R spread).1 x s stream).1 < 2 * 2 ^ R := by
  have h2R1 : (2:Nat) ^ (R + 1) = 2 * 2 ^ R := by ring
  obtain ⟨h1, h2, -⟩ := tans_step F spread R hR1 hR hsum hlen hcount s x
    (by omega) hx1 (by omega) stream
  exact ⟨h1, by omega⟩

/-- Witness for C7 at `F = [16, 16]`, `R = 5`,
`spread = fse_spread [16, 16] 5`, `x = 32`, `s = 0`: the new state stays
in `[32, 64)`. -/
theorem tans_encode_state_invariant_witness :
    2 ^ 5 ≤ (encode_symbol
      (build_encode_table [16, 16] 5 (fse_spread [16, 16] 5)).2.1
      (build_encode_table [16, 16] 5 (fse_spread [16, 16] 5)).2.2
      (build_encode_table [16, 16] 5 (fse_spread [16, 16] 5)).1
      32 0 []).1 ∧
    (encode_symbol
      (build_encode_table [16, 16] 5 (fse_spread [16, 16] 5)).2.1
      (build_encode_table [16, 16] 5 (fse_spread [16, 16] 5)).2.2
      (build_encode_table [16, 16] 5 (fse_spread [16, 16] 5)).1
      32 0 []).1 < 2 * 2 ^ 5 := by
  have hall : ∀ v ∈ fse_spread [16, 16] 5, v < 2 := by decide
  have hcount : ∀ s, (fse_spread [16, 16] 5).count s
      = ([16, 16] : List Nat).getD s 0 := by
    intro s
    match s with
    | 0 => decide
    | 1 => decide
    | n + 2 =>
      have h0 : (fse_spread [16, 16] 5).count (n + 2) = 0 :=
        List.count_eq_zero.mpr (fun hmem => by
          have := hall _ hmem
          omega)
      rw [h0, List.getD_eq_default _ _ (by simp)]
  exact tans_encode_state_invariant [16, 16] (fse_spread [16, 16] 5) 5
    (by norm_num) (by norm_num) (by decide) (by decide) hcount
    0 32 (by decide) (by norm_num) (by norm_num) []

/-- C2: tANS round-trip.  For every normalized histogram `F` of the
source over `table_log R ∈ [5, 13]`, every spread table consistent with
`F`, and every nonempty source over symbols of positive frequency,
`decode_tans` applied to the stream and final state returned by
`encode_tans` (initial state `2^R`) reproduces the source exactly. -/
theorem tans_round_trip (F spread : List Nat) (R : Nat) (src : List Nat)
    (hR5 : 5 ≤ R) (hR13 : R ≤ 13)
    (hsum : F.sum = 2 ^ R)
    (hlen : spread.length = 2 ^ R)
    (hcount : ∀ s, spread.count s = F.getD s 0)
    (_hsrc : 1 ≤ src.length)
    (hmem : ∀ s ∈ src, 1 ≤ F.getD s 0) :
    ∃ stream fin,
      encode_tans src F spread R (2 ^ R) = some (stream, fin) ∧
      decode_tans stream F spread R fin src.length = some src := by
  have hpos : (0:Nat) < 2 ^ R := by positivity
  have h2R1 : (2:Nat) ^ (R + 1) = 2 * 2 ^ R := by ring
  obtain ⟨h1, h2, h3⟩ := tans_loop F spread R (by omega) (by omega)
    hsum hlen hcount src (2 ^ R) [] hmem (le_refl _) (by omega)
  refine ⟨finalizeStream ((src.foldl (fun (p : Nat × List Bool) symbol =>
      encode_symbol (build_encode_table F R spread).2.1
        (build_encode_table F R spread).2.2
        (build_encode_table F R spread).1 p.1 symbol p.2)
      (2 ^ R, [])).2),
    ((src.foldl (fun (p : Nat × List Bool) symbol =>
      encode_symbol (build_encode_table F R spread).2.1
        (build_encode_table F R spread).2.2
        (build_encode_table F R spread).1 p.1 symbol p.2)
      (2 ^ R, [])).1) - 2 ^ R, ?_, ?_⟩
  · simp only [encode_tans, Nat.one_shiftLeft]
    rw [if_neg (by omega)]
  · have hrb : ∀ st : List Bool, readBits 1 (true :: st) = some (1, st) := by
      intro st
      rfl
    simp only [decode_tans, finalizeStream, hrb, h3]

/-- Witness for C2 at `F = [16, 16]`, `R = 5`,
`spread = fse_spread [16, 16] 5`, `src = [0, 1, 0]`. -/
theorem tans_round_trip_witness :
    ∃ stream fin,
      encode_tans [0, 1, 0] [16, 16] (fse_spread [16, 16] 5) 5 (2 ^ 5)
        = some (stream, fin) ∧
      decode_tans stream [16, 16] (fse_spread [16, 16] 5) 5 fin
        ([0, 1, 0] : List Nat).length = some [0, 1, 0] := by
  have hall : ∀ v ∈ fse_spread [16, 16] 5, v < 2 := by decide
  have hcount : ∀ s, (fse_spread [16, 16] 5).count s
      = ([16, 16] : List Nat).getD s 0 := by
    intro s
    match s with
    | 0 => decide
    | 1 => decide
    | n + 2 =>
      have h0 : (fse_spread [16, 16] 5).count (n + 2) = 0 :=
        List.count_eq_zero.mpr (fun hmem => by
          have := hall _ hmem
          omega)
      rw [h0, List.getD_eq_default _ _ (by simp)]
  exact tans_round_trip [16, 16] (fse_spread [16, 16] 5) 5 [0, 1, 0]
    (by norm_num) (by norm_num) (by decide) (by decide) hcount
    (by decide) (by decide)

end FinalState
